import Mathlib

/-!
Shallow embedding of the IR-2019 repository (interleaving experiments and
power analysis for online ranker evaluation) together with proofs about its
specified behaviour.

Python floats are modelled as rationals; random draws are passed in
explicitly as streams (`ℕ → Bool`, `ℕ → ℚ`, `ℕ → ℕ`); a raised exception is
modelled as `none` (or `RunRes.crash` for the fuelled interleaving loops).
-/

set_option maxHeartbeats 1000000

namespace IR2019

/-! ## `power_analysis.py` -/

/-- The click-attribution loop of `interleaving_simulation`
(`power_analysis.py`): for each clicked index, credit team E when the
assignment stored with the document is `1`, otherwise team P.  Returns
`(n_E_click, n_P_click)`. -/
def countTeamClicks (search_results : List (ℤ × ℤ)) (clicked : List ℕ) : ℕ × ℕ :=
  clicked.foldl
    (fun acc click =>
      if (search_results.getD click (0, 0)).2 = 1 then (acc.1 + 1, acc.2)
      else (acc.1, acc.2 + 1))
    (0, 0)

/-- One iteration of the trial loop of `interleaving_simulation`: build the
interleaved list for trial `t`, collect clicks, and update `(wins0, wins1)`:
a tie increments both counters, strictly more E clicks increments `wins1`,
otherwise `wins0`. -/
def simulationStep {α : Type} (pair : α) (interleaving_func : ℕ → α → List (ℤ × ℤ))
    (click_model_func : ℕ → List ℤ → List ℕ) (wins : ℕ × ℕ) (t : ℕ) : ℕ × ℕ :=
  let search_results := interleaving_func t pair
  let relevance_grades := search_results.map Prod.fst
  let clicked := click_model_func t relevance_grades
  let n := countTeamClicks search_results clicked
  if n.1 = n.2 then (wins.1 + 1, wins.2 + 1)
  else if n.1 > n.2 then (wins.1, wins.2 + 1)
  else (wins.1 + 1, wins.2)

/-- `interleaving_simulation` from `power_analysis.py`.  The interleaving
function and click model are passed in as in the source; their internal
randomness is represented by the extra trial index `t`. -/
def interleaving_simulation {α : Type} (pair : α) (k : ℕ)
    (interleaving_func : ℕ → α → List (ℤ × ℤ))
    (click_model_func : ℕ → List ℤ → List ℕ) : ℚ :=
  let wins := (List.range k).foldl
    (simulationStep pair interleaving_func click_model_func) (0, 0)
  (wins.2 : ℚ) / ((wins.1 : ℚ) + (wins.2 : ℚ))

/-- The per-trial attributed click counts of `interleaving_simulation`. -/
def trialCounts {α : Type} (pair : α) (interleaving_func : ℕ → α → List (ℤ × ℤ))
    (click_model_func : ℕ → List ℤ → List ℕ) (t : ℕ) : ℕ × ℕ :=
  let search_results := interleaving_func t pair
  countTeamClicks search_results (click_model_func t (search_results.map Prod.fst))

/-- `compute_sample_size` from `power_analysis.py`.  The SciPy standard
normal quantile `stats.norm.ppf` and the square root are abstracted into the
function parameters `ppf` and `sqrtf`; everything else follows the source.
Returns the sentinel `-1` when `p1 = 0.5`. -/
def compute_sample_size (ppf sqrtf : ℚ → ℚ) (p1 alpha beta : ℚ) : ℤ :=
  let p0 : ℚ := 1/2
  let diff := p1 - p0
  if diff = 0 then -1
  else
    let z_alpha := ppf (1 - alpha)
    let z_beta := ppf (1 - beta)
    let sigma0 := sqrtf (p0 * (1 - p0))
    let sigma1 := sqrtf (p1 * (1 - p1))
    Int.ceil (((z_alpha * sigma0 + z_beta * sigma1) / diff) ^ 2)

/-- Ascending insertion used to model Python's `list.sort()`. -/
def insertSorted (x : ℤ) : List ℤ → List ℤ
  | [] => [x]
  | y :: ys => if x ≤ y then x :: y :: ys else y :: insertSorted x ys

/-- Ascending sort, modelling `cur.sort()` in `process_bins`. -/
def sortAsc (l : List ℤ) : List ℤ := l.foldr insertSorted []

/-- The sentinel-stripping loop `while cur[-1] == -1: cur.pop()` of
`process_bins`.  The loop pops from the tail of the descending list, i.e.
from the head of its ascending reversal, which is the form this function
works on; `none` models the `IndexError` raised by `cur[-1]` once the loop
has emptied the list. -/
def stripSentinels : List ℤ → Option (List ℤ)
  | [] => none
  | x :: rest => if x = -1 then stripSentinels rest else some (x :: rest)

/-- Python `min` over a non-empty list (`process_bins` calls `min(cur)`). -/
def listMin : List ℤ → ℤ
  | [] => 0
  | x :: xs => xs.foldl min x

/-- Python `max` over a non-empty list (`process_bins` calls `max(cur)`). -/
def listMax : List ℤ → ℤ
  | [] => 0
  | x :: xs => xs.foldl max x

/-- The per-bucket body of `process_bins` (`power_analysis.py`).  The inner
`Option` is the `has_info` flag (`none` means `has_info = False`); the outer
`Option` models the `IndexError` raised while stripping an all-sentinel
bucket.  The triple is `(min, max, median)` with
`median = ceil((cur[d] + cur[-int(not bool(m))]) / 2.0)` where
`d, m = divmod(len(cur), 2)`. -/
def processBin (cur : List ℤ) : Option (Option (ℤ × ℤ × ℤ)) :=
  if cur = [] then some none
  else
    -- `cur.sort(); cur.reverse()` makes the list descending; the strip loop
    -- pops its tail, i.e. the head of the ascending order, and the final
    -- `cur.reverse()` restores ascending order, so both reversals cancel.
    match stripSentinels (sortAsc cur) with
    | none => none
    | some l =>
      let d := l.length / 2
      let m := l.length % 2
      let second := if m = 0 then l.getD (l.length - 1) 0 else l.getD 0 0
      let median : ℤ := Int.ceil (((l.getD d 0 : ℚ) + (second : ℚ)) / 2)
      some (some (listMin l, listMax l, median))

/-- `process_bins` from `power_analysis.py`. -/
def process_bins (bins : List (List ℤ)) : Option (List (Option (ℤ × ℤ × ℤ))) :=
  bins.mapM processBin

/-! ## `click_model_v2.py` -/

namespace RCM

/-- `RCM.get_p`: one copy of the current `rho` per ranked document.  The
state `rho` is passed explicitly; before `learn` it is the value drawn by
`random()` in `__init__`. -/
def get_p (rho : ℚ) (relevance_grades : List ℤ) : List ℚ :=
  (List.range relevance_grades.length).map (fun _ => rho)

/-- `RCM.get_clicks`: one Bernoulli draw per position, comparing the draw
for position `i` against `p[i]`; clicked positions are appended in order. -/
def get_clicks (rho : ℚ) (relevance_grades : List ℤ) (draws : ℕ → ℚ) : List ℕ :=
  let p := get_p rho relevance_grades
  (List.range p.length).filter (fun i => decide (draws i ≤ p.getD i 0))

end RCM

namespace PBM

/-- `PBM.get_p`: for each rank up to `min(len(gammas), len(relevance_grades))`,
the click probability is `gammas[i] * epsilon` for an irrelevant document and
`gammas[i] * (1 - epsilon)` for a relevant one. -/
def get_p (gammas : List ℚ) (relevance_grades : List ℤ) (epsilon : ℚ) : List ℚ :=
  (List.range (min gammas.length relevance_grades.length)).map (fun i =>
    if relevance_grades.getD i 0 = 0 then gammas.getD i 0 * epsilon
    else gammas.getD i 0 * (1 - epsilon))

/-- A parsed Yandex-log database item (`read_yandex`): session id, action
kind (`"q"` for a query, anything else for a click), action id, and the
ranked url list of a query. -/
structure DBItem where
  id : ℤ
  a : String
  a_id : ℤ
  urls : List ℤ
deriving DecidableEq

/-- The `{'sum': ..., 'length': ...}` record of `alpha_sum`. -/
structure AlphaStat where
  sum : ℚ
  count : ℕ
deriving DecidableEq

/-- Python dict lookup on an association list keyed by `(doc id, query id)`
(the source keys by `str((_id, q_id))`). -/
def lookupKV {β : Type} (k : ℤ × ℤ) : List ((ℤ × ℤ) × β) → Option β
  | [] => none
  | (k', v) :: rest => if k' = k then some v else lookupKV k rest

/-- Python dict assignment `d[k] = v` on an association list. -/
def setKV {β : Type} (k : ℤ × ℤ) (v : β) : List ((ℤ × ℤ) × β) → List ((ℤ × ℤ) × β)
  | [] => [(k, v)]
  | (k', v') :: rest => if k' = k then (k, v) :: rest else (k', v') :: setKV k v rest

/-- Fresh random gamma draws for positions `start, start+1, ...`:
the tail appended by the `while len(self.gammas) < gamma_length` loop of
`PBM.update`. -/
def appendInits (ginit : ℕ → ℚ) (start : ℕ) : ℕ → List ℚ
  | 0 => []
  | k + 1 => ginit start :: appendInits ginit (start + 1) k

/-- The `while len(self.gammas) < gamma_length: self.gammas.append(random())`
loop of `PBM.update`: appends one fresh draw per missing position; the
random draws are the stream `ginit`, indexed by the position being filled. -/
def extendGammas (ginit : ℕ → ℚ) (gamma_length : ℕ) (gammas : List ℚ) : List ℚ :=
  gammas ++ appendInits ginit gammas.length (gamma_length - gammas.length)

/-- The `while len(gamma_sum) < gamma_length: gamma_sum.append(0)` loop of
`PBM.update`: pads with zeros up to `gamma_length`. -/
def extendZeros (gamma_length : ℕ) (gamma_sum : List ℚ) : List ℚ :=
  gamma_sum ++ List.replicate (gamma_length - gamma_sum.length) 0

/-- The `for r, _id in enumerate(q_urls)` loop of `PBM.update`: missing
`alphas`/`alpha_sum` entries are initialised (fresh random draws are
`ainit`), then the clicked target `1` or the EM pseudo-count
`(1 - gamma_r) * alpha_uq / (1 - gamma_r * alpha_uq)` is added to
`alpha_sum[uq]` and `gamma_r * (1 - alpha_uq) / (1 - gamma_r * alpha_uq)`
(or `1` for a click) to `gamma_sum[r]`, and `alpha_sum[uq]['length']` is
incremented. -/
def updateUrls (ainit : ℤ × ℤ → ℚ) (q_id : ℤ) (clicks : List ℤ) (gammas : List ℚ) :
    List ℤ → ℕ → List ((ℤ × ℤ) × ℚ) → List ((ℤ × ℤ) × AlphaStat) → List ℚ →
    List ((ℤ × ℤ) × ℚ) × List ((ℤ × ℤ) × AlphaStat) × List ℚ
  | [], _, alphas, alpha_sum, gamma_sum => (alphas, alpha_sum, gamma_sum)
  | _id :: rest, r, alphas, alpha_sum, gamma_sum =>
    let uq := (_id, q_id)
    let alphas' := match lookupKV uq alphas with
      | none => setKV uq (ainit uq) alphas
      | some _ => alphas
    let alpha_sum' := match lookupKV uq alpha_sum with
      | none => setKV uq ⟨0, 0⟩ alpha_sum
      | some _ => alpha_sum
    let alpha_uq := (lookupKV uq alphas').getD 0
    let gamma_r := gammas.getD r 0
    let stat := (lookupKV uq alpha_sum').getD ⟨0, 0⟩
    if _id ∈ clicks then
      updateUrls ainit q_id clicks gammas rest (r + 1) alphas'
        (setKV uq ⟨stat.sum + 1, stat.count + 1⟩ alpha_sum')
        (gamma_sum.set r (gamma_sum.getD r 0 + 1))
    else
      updateUrls ainit q_id clicks gammas rest (r + 1) alphas'
        (setKV uq
          ⟨stat.sum + (1 - gamma_r) * alpha_uq / (1 - gamma_r * alpha_uq),
            stat.count + 1⟩ alpha_sum')
        (gamma_sum.set r (gamma_sum.getD r 0 +
          gamma_r * (1 - alpha_uq) / (1 - gamma_r * alpha_uq)))

/-- The `self.alphas` / `self.gammas` state of a `PBM` instance. -/
structure PBMModel where
  alphas : List ((ℤ × ℤ) × ℚ)
  gammas : List ℚ
deriving DecidableEq

/-- `PBM.update` from `click_model_v2.py`: on a query item, fold the
previous query's (possibly rank-truncated) url list into the running sums
and reset `clicks`; on a click item, record the clicked document id. -/
def update (ainit : ℤ × ℤ → ℚ) (ginit : ℕ → ℚ) (model : PBMModel) (item : DBItem)
    (alpha_sum : List ((ℤ × ℤ) × AlphaStat)) (gamma_sum : List ℚ)
    (prev_q : DBItem) (clicks : List ℤ) (n : ℤ) :
    PBMModel × List ((ℤ × ℤ) × AlphaStat) × List ℚ × DBItem × List ℤ :=
  if item.a = "q" then
    let q_id := prev_q.a_id
    let q_urls := if 0 ≤ n then prev_q.urls.take n.toNat else prev_q.urls
    let gamma_length := q_urls.length
    let gammas := extendGammas ginit gamma_length model.gammas
    let gamma_sum' := extendZeros gamma_length gamma_sum
    let res := updateUrls ainit q_id clicks gammas q_urls 0 model.alphas alpha_sum gamma_sum'
    (⟨res.1, gammas⟩, res.2.1, res.2.2, item, [])
  else
    (model, alpha_sum, gamma_sum, prev_q, clicks ++ [item.a_id])

/-- The gamma re-estimation loop closing `PBM._learn`:
`self.gammas[r] = (gamma_sum[r] + 1) / (n_queries + 1)` for each index of
`gamma_sum`. -/
def relearnAux (n_queries : ℤ) : List ℚ → ℕ → List ℚ → List ℚ
  | [], _, gammas => gammas
  | g :: rest, r, gammas =>
    relearnAux n_queries rest (r + 1) (gammas.set r ((g + 1) / ((n_queries : ℚ) + 1)))

/-- The gamma re-estimation of `PBM._learn` as a function of the summed
contributions and the query count. -/
def relearnGammas (gammas gamma_sum : List ℚ) (n_queries : ℤ) : List ℚ :=
  relearnAux n_queries gamma_sum 0 gammas

end PBM

/-! ## `interleaving.py` -/

/-- Result of a fuelled run of an interleaving loop: a normal return, a
raised exception (`crash`), or fuel exhaustion of the model (never the
program's own behaviour). -/
inductive RunRes (α : Type) where
  | ok (val : α)
  | crash
  | fuelOut
deriving DecidableEq, Repr

/-- The inner `while not new_result` scan of `td_interleaving`
(`interleaving.py`): starting at `ptr`, advance through the ranking until a
document whose duplicate id is not in `found` is reached
(`some (some doc, ptr')`) or the pointer reaches `limit` right after a
rejected document (`some (none, ptr')`); `none` models the `IndexError` of
`ranking[ptr]` with `ptr` out of range.  The scan is driven by the suffix
`ranking.drop ptr`, whose head is `ranking[ptr]`; an empty suffix is the
out-of-range access. -/
def findFreshAux (limit : ℕ) (found : List ℤ) :
    List (ℤ × ℤ) → ℕ → Option (Option (ℤ × ℤ) × ℕ)
  | [], _ => none
  | doc :: rest, ptr =>
    if doc.2 ∉ found then some (some doc, ptr + 1)
    else if ptr + 1 = limit then some (none, ptr + 1)
    else findFreshAux limit found rest (ptr + 1)

/-- The inner scan of `td_interleaving` starting at index `ptr` of
`ranking`. -/
def findFresh (ranking : List (ℤ × ℤ)) (limit : ℕ) (found : List ℤ) (ptr : ℕ) :
    Option (Option (ℤ × ℤ) × ℕ) :=
  findFreshAux limit found (ranking.drop ptr) ptr

/-- Mutable state of `td_interleaving`.  Emitted entries are instrumented as
`(relevance, duplicate id, team)`; the source emits the `(relevance, team)`
projection. -/
structure TDState where
  interleaved : List (ℤ × ℤ × ℕ)
  p_team : ℕ
  e_team : ℕ
  p_pointer : ℕ
  e_pointer : ℕ
  found_duplicates : List ℤ

/-- One iteration of the outer `while len(interleaved) < max_interleav` loop
of `td_interleaving` given the drawn priority bit; `none` models a raised
`IndexError`. -/
def tdStep (ranking_p ranking_e : List (ℤ × ℤ)) (limit : ℕ) (p_priority : Bool)
    (s : TDState) : Option TDState :=
  if s.p_team < s.e_team ∨ (s.p_team = s.e_team ∧ p_priority) then
    match findFresh ranking_p limit s.found_duplicates s.p_pointer with
    | none => none
    | some (none, ptr) => some { s with p_pointer := ptr }
    | some (some doc, ptr) =>
      some { s with
        interleaved := s.interleaved ++ [(doc.1, doc.2, 0)]
        p_team := s.p_team + 1
        p_pointer := ptr
        found_duplicates :=
          if 0 < doc.2 then s.found_duplicates ++ [doc.2] else s.found_duplicates }
  else
    match findFresh ranking_e limit s.found_duplicates s.e_pointer with
    | none => none
    | some (none, ptr) => some { s with e_pointer := ptr }
    | some (some doc, ptr) =>
      some { s with
        interleaved := s.interleaved ++ [(doc.1, doc.2, 1)]
        e_team := s.e_team + 1
        e_pointer := ptr
        found_duplicates :=
          if 0 < doc.2 then s.found_duplicates ++ [doc.2] else s.found_duplicates }

/-- The fuelled outer loop of `td_interleaving`; `n` indexes the priority
stream. -/
def tdLoop (ranking_p ranking_e : List (ℤ × ℤ)) (limit max_interleav : ℕ)
    (priorities : ℕ → Bool) : ℕ → ℕ → TDState → RunRes (List (ℤ × ℤ × ℕ))
  | 0, _, s =>
    if s.interleaved.length < max_interleav then .fuelOut else .ok s.interleaved
  | fuel + 1, n, s =>
    if s.interleaved.length < max_interleav then
      match tdStep ranking_p ranking_e limit (priorities n) s with
      | none => .crash
      | some s' =>
        tdLoop ranking_p ranking_e limit max_interleav priorities fuel (n + 1) s'
    else .ok s.interleaved

/-- `td_interleaving` from `interleaving.py`.  The per-iteration
`np.random.choice(2, 1)[0]` priority draws are the stream `priorities`
(`true` for `1`); the result keeps the duplicate id of each emission. -/
def td_interleaving (ranking_pair : List (ℤ × ℤ) × List (ℤ × ℤ))
    (max_interleav : ℕ) (priorities : ℕ → Bool) (fuel : ℕ) :
    RunRes (List (ℤ × ℤ × ℕ)) :=
  tdLoop ranking_pair.1 ranking_pair.2 ranking_pair.1.length max_interleav priorities
    fuel 0 ⟨[], 0, 0, 0, 0, []⟩

/-- `get_softmax` from `interleaving.py`: `1/(rank^tau)` normalised. -/
def get_softmax (ranking_indices : List ℕ) (tau : ℕ) : List ℚ :=
  let numerator_list :=
    ranking_indices.map (fun rank_index => (1 : ℚ) / (((rank_index : ℚ) + 1) ^ tau))
  let denominator := numerator_list.sum
  numerator_list.map (fun value => value / denominator)

/-- Mutable state of `prob_interleaving`, with the same instrumentation of
emissions as `TDState`. -/
structure PIState where
  interleaved : List (ℤ × ℤ × ℕ)
  p_indices : List ℕ
  e_indices : List ℕ
  found_duplicates : List ℤ

/-- Models `np.random.choice(indices, 1, p=softmax)[0]`: raises (`none`)
when `indices` is empty, otherwise returns the entry at a selector-chosen
position (every entry has positive softmax weight, so every choice is a
possible draw). -/
def pickIndex (indices : List ℕ) (sel : ℕ) : Option ℕ :=
  match indices with
  | [] => none
  | _ :: _ => some (indices.getD (sel % indices.length) 0)

/-- Models Python `list.remove(x)`: removes the first occurrence of `x`,
raising `ValueError` (`none`) when `x` is absent. -/
def removeFirst (l : List ℕ) (x : ℕ) : Option (List ℕ) :=
  if x ∈ l then some (l.erase x) else none

/-- One iteration of the `while len(interleaved) < max_interleav` loop of
`prob_interleaving` given the drawn priority bit and selector; `none` models
a raised exception. -/
def piStep (ranking_p ranking_e : List (ℤ × ℤ)) (p_priority : Bool) (sel : ℕ)
    (s : PIState) : Option PIState :=
  if (p_priority ∧ s.p_indices ≠ []) ∨ s.e_indices = [] then
    (pickIndex s.p_indices sel).bind fun doc_index_p =>
    (removeFirst s.p_indices doc_index_p).bind fun p_indices' =>
    (ranking_p.get? doc_index_p).bind fun result_p =>
    if result_p.2 = 0 then
      some { s with
        p_indices := p_indices'
        interleaved := s.interleaved ++ [(result_p.1, result_p.2, 0)] }
    else if 0 < result_p.2 ∧ result_p.2 ∉ s.found_duplicates then
      (ranking_e.findIdx? (fun d => decide (d = result_p))).bind fun duplicate_index =>
      (removeFirst s.e_indices duplicate_index).bind fun e_indices' =>
      some {
        interleaved := s.interleaved ++ [(result_p.1, result_p.2, 0)]
        p_indices := p_indices'
        e_indices := e_indices'
        found_duplicates := s.found_duplicates ++ [result_p.2] }
    else
      some { s with p_indices := p_indices' }
  else
    (pickIndex s.e_indices sel).bind fun doc_index_e =>
    (removeFirst s.e_indices doc_index_e).bind fun e_indices' =>
    (ranking_e.get? doc_index_e).bind fun result_e =>
    if result_e.2 = 0 then
      some { s with
        e_indices := e_indices'
        interleaved := s.interleaved ++ [(result_e.1, result_e.2, 1)] }
    else if 0 < result_e.2 ∧ result_e.2 ∉ s.found_duplicates then
      (ranking_p.findIdx? (fun d => decide (d = result_e))).bind fun duplicate_index =>
      (removeFirst s.p_indices duplicate_index).bind fun p_indices'' =>
      some {
        interleaved := s.interleaved ++ [(result_e.1, result_e.2, 1)]
        p_indices := p_indices''
        e_indices := e_indices'
        found_duplicates := s.found_duplicates ++ [result_e.2] }
    else
      some { s with e_indices := e_indices' }

/-- The fuelled outer loop of `prob_interleaving`; `n` indexes the random
streams. -/
def piLoop (ranking_p ranking_e : List (ℤ × ℤ)) (max_interleav : ℕ)
    (priorities : ℕ → Bool) (selectors : ℕ → ℕ) :
    ℕ → ℕ → PIState → RunRes (List (ℤ × ℤ × ℕ))
  | 0, _, s =>
    if s.interleaved.length < max_interleav then .fuelOut else .ok s.interleaved
  | fuel + 1, n, s =>
    if s.interleaved.length < max_interleav then
      match piStep ranking_p ranking_e (priorities n) (selectors n) s with
      | none => .crash
      | some s' =>
        piLoop ranking_p ranking_e max_interleav priorities selectors fuel (n + 1) s'
    else .ok s.interleaved

/-- `prob_interleaving` from `interleaving.py`, with both index pools
initialised to `range(limit)` for `limit = len(ranking_p)` as in the
source. -/
def prob_interleaving (ranking_pair : List (ℤ × ℤ) × List (ℤ × ℤ))
    (max_interleav : ℕ) (priorities : ℕ → Bool) (selectors : ℕ → ℕ) (fuel : ℕ) :
    RunRes (List (ℤ × ℤ × ℕ)) :=
  let limit := ranking_pair.1.length
  piLoop ranking_pair.1 ranking_pair.2 max_interleav priorities selectors fuel 0
    ⟨[], List.range limit, List.range limit, []⟩

/-- No nonzero duplicate-tag occurs on two distinct emissions of an
interleaved list. -/
def TagOnce (l : List (ℤ × ℤ × ℕ)) : Prop :=
  ∀ t : ℤ, 0 < t → l.countP (fun e => decide (e.2.1 = t)) ≤ 1

/-- Invariant of the `td_interleaving` loop: emitted nonzero tags are
pairwise distinct and all recorded in `found_duplicates`. -/
def TDInv (s : TDState) : Prop :=
  TagOnce s.interleaved ∧
  ∀ e ∈ s.interleaved, 0 < e.2.1 → e.2.1 ∈ s.found_duplicates

/-- Invariant of the `prob_interleaving` loop: emitted nonzero tags are
pairwise distinct and all recorded in `found_duplicates`. -/
def PIInv (s : PIState) : Prop :=
  TagOnce s.interleaved ∧
  ∀ e ∈ s.interleaved, 0 < e.2.1 → e.2.1 ∈ s.found_duplicates

/-- The positive duplicate-tags of an interleaved list, in emission order;
this is exactly what the `found_duplicates` list accumulates. -/
def tagsOf (l : List (ℤ × ℤ × ℕ)) : List ℤ :=
  (l.filter (fun e => decide (0 < e.2.1))).map (fun e => e.2.1)

/-- Duplicate-tag well-formedness of a ranking pair (data model of the
spec): tags are non-negative, each nonzero tag occurs at most once per
ranking, and each tagged document occurs — with equal relevance grade — in
both rankings. -/
def WFPair (ranking_p ranking_e : List (ℤ × ℤ)) : Prop :=
  (∀ d ∈ ranking_p, 0 ≤ d.2) ∧ (∀ d ∈ ranking_e, 0 ≤ d.2) ∧
  (∀ d ∈ ranking_p, 0 < d.2 →
    ranking_p.countP (fun d' => decide (d'.2 = d.2)) ≤ 1) ∧
  (∀ d ∈ ranking_e, 0 < d.2 →
    ranking_e.countP (fun d' => decide (d'.2 = d.2)) ≤ 1) ∧
  (∀ d ∈ ranking_p, 0 < d.2 → d ∈ ranking_e) ∧
  (∀ d ∈ ranking_e, 0 < d.2 → d ∈ ranking_p)

/-- Full loop invariant of `td_interleaving` on a well-formed pair:
`found_duplicates` is exactly the list of emitted positive tags, emitted
tags are pairwise distinct, both pointers are in range, and the documents a
side has passed over without their tag being found are bounded by the
untagged emissions. -/
def TDFull (ranking_p ranking_e : List (ℤ × ℤ)) (s : TDState) : Prop :=
  s.found_duplicates = tagsOf s.interleaved ∧
  TagOnce s.interleaved ∧
  s.p_pointer ≤ ranking_p.length ∧
  s.e_pointer ≤ ranking_e.length ∧
  (ranking_p.take s.p_pointer).countP
      (fun d => decide (d.2 ∉ s.found_duplicates)) ≤
    s.interleaved.countP (fun e => decide (e.2.1 ≤ 0)) ∧
  (ranking_e.take s.e_pointer).countP
      (fun d => decide (d.2 ∉ s.found_duplicates)) ≤
    s.interleaved.countP (fun e => decide (e.2.1 ≤ 0))

/-- Full loop invariant of `prob_interleaving` on a well-formed pair:
index pools are in-range and duplicate-free, teams are 0/1, every pooled
tagged document's tag is still unfound, every unfound tagged document is
still pooled, and pool sizes balance against emissions and suppressions. -/
def PIFull (ranking_p ranking_e : List (ℤ × ℤ)) (s : PIState) : Prop :=
  (∀ i ∈ s.p_indices, i < ranking_p.length) ∧
  (∀ i ∈ s.e_indices, i < ranking_e.length) ∧
  s.p_indices.Nodup ∧
  s.e_indices.Nodup ∧
  (∀ e ∈ s.interleaved, e.2.2 = 0 ∨ e.2.2 = 1) ∧
  (∀ i ∈ s.p_indices, ∀ hi : i < ranking_p.length,
    0 < (ranking_p.get ⟨i, hi⟩).2 →
    (ranking_p.get ⟨i, hi⟩).2 ∉ s.found_duplicates) ∧
  (∀ i ∈ s.e_indices, ∀ hi : i < ranking_e.length,
    0 < (ranking_e.get ⟨i, hi⟩).2 →
    (ranking_e.get ⟨i, hi⟩).2 ∉ s.found_duplicates) ∧
  (∀ i, (hi : i < ranking_p.length) → 0 < (ranking_p.get ⟨i, hi⟩).2 →
    (ranking_p.get ⟨i, hi⟩).2 ∉ s.found_duplicates → i ∈ s.p_indices) ∧
  (∀ j, (hj : j < ranking_e.length) → 0 < (ranking_e.get ⟨j, hj⟩).2 →
    (ranking_e.get ⟨j, hj⟩).2 ∉ s.found_duplicates → j ∈ s.e_indices) ∧
  s.p_indices.length + s.interleaved.countP (fun e => decide (e.2.2 = 0)) +
    s.interleaved.countP (fun e => decide (e.2.2 = 1 ∧ 0 < e.2.1)) =
    ranking_p.length ∧
  s.e_indices.length + s.interleaved.countP (fun e => decide (e.2.2 = 1)) +
    s.interleaved.countP (fun e => decide (e.2.2 = 0 ∧ 0 < e.2.1)) =
    ranking_p.length

/-! ## `generate_input.py` -/

/-- The default grade-to-probability function of `ERR`:
`R(g, max_g) = (2^g - 1) / 2^max_g`. -/
def R_default (g max_g : ℕ) : ℚ := ((2 ^ g : ℚ) - 1) / (2 ^ max_g : ℚ)

/-- The accumulation loop of `ERR`: `ERR += p * R / r; p *= (1 - R)` with
`r` counting ranks from 1. -/
def errAux (max_g : ℕ) : List ℕ → ℚ → ℕ → ℚ
  | [], _, _ => 0
  | g :: rest, p, r =>
    p * R_default g max_g / (r : ℚ) + errAux max_g rest (p * (1 - R_default g max_g)) (r + 1)

/-- Python `max` over a list of naturals (`max(g_list)` in `ERR`). -/
def listMaxNat : List ℕ → ℕ
  | [] => 0
  | x :: xs => xs.foldl max x

/-- `ERR` from `generate_input.py` with the default `R_func`. -/
def ERR (g_list : List ℕ) : ℚ := errAux (listMaxNat g_list) g_list 1 1

/-- Wins credited to ranker P over `k` trials: the trials whose E-attributed
click count does not exceed the P-attributed one (ties included, as the code
increments both counters on a tie). -/
def simWins0 {α : Type} (pair : α) (interleaving_func : ℕ → α → List (ℤ × ℤ))
    (click_model_func : ℕ → List ℤ → List ℕ) (k : ℕ) : ℕ :=
  ((List.range k).filter (fun t =>
    decide ((trialCounts pair interleaving_func click_model_func t).1 ≤
      (trialCounts pair interleaving_func click_model_func t).2))).length

/-- Wins credited to ranker E over `k` trials: the trials whose P-attributed
click count does not exceed the E-attributed one (ties included). -/
def simWins1 {α : Type} (pair : α) (interleaving_func : ℕ → α → List (ℤ × ℤ))
    (click_model_func : ℕ → List ℤ → List ℕ) (k : ℕ) : ℕ :=
  ((List.range k).filter (fun t =>
    decide ((trialCounts pair interleaving_func click_model_func t).2 ≤
      (trialCounts pair interleaving_func click_model_func t).1))).length

/-- The product of `1 - R(g, max_g)` over a grade list: the probability mass
left after the `p *= (1 - R)` updates of `ERR`. -/
def prodOneMinus (max_g : ℕ) (gs : List ℕ) : ℚ :=
  (gs.map (fun g => 1 - R_default g max_g)).prod

/-- Concrete rational stand-in for `stats.norm.ppf` at the default
significance levels (`Phi^-1(0.95) ≈ 1.645`, `Phi^-1(0.90) ≈ 1.282`). -/
def ppfW : ℚ → ℚ := fun x => if x = 19/20 then 1645/1000 else if x = 9/10 then 1282/1000 else 0

/-- Concrete rational stand-in for `sqrt` at the two arguments reached for
`p1 = 0.7` (`sqrt(1/4) = 1/2`, `sqrt(0.21) ≈ 0.458`). -/
def sqrtW : ℚ → ℚ := fun x => if x = 1/4 then 1/2 else if x = 21/100 then 458/1000 else 0

/-- Concrete deterministic interleaving function for witnesses: trial 0
credits its single document to E, later trials to P. -/
def fW : ℕ → Unit → List (ℤ × ℤ) := fun t _ => [(1, if t = 0 then 1 else 0)]

/-- Concrete deterministic click model for witnesses: always clicks rank 0. -/
def cW : ℕ → List ℤ → List ℕ := fun _ _ => [0]

/-! ## Helper lemmas -/

/-- `RCM.get_p` is `len(relevance_grades)` copies of the current `rho`. -/
theorem rcm_get_p_replicate (rho : ℚ) (grades : List ℤ) :
    RCM.get_p rho grades = List.replicate grades.length rho := by
  unfold RCM.get_p
  rw [List.map_const', List.length_range]

/-! ## Claims -/

/-- C7 (counterexample): before any `learn`, `RCM.get_p` silently returns
copies of the randomly initialised `rho` (here `1/2`) and `PBM.get_p`
silently returns the empty list (its `gammas` list is empty); neither call
fails with a "model untrained" error — there is no error path in either
function. -/
theorem get_p_untrained_counterexample :
    RCM.get_p (1/2) [0, 0] = [1/2, 1/2] ∧ PBM.get_p [] [0, 1, 0] (1/10) = [] :=
  ⟨rfl, rfl⟩

/-- C7 (amended): `RCM.get_p` always returns `len(relevance_grades)` copies
of the current `rho` — before `learn` that is the random initialisation from
`__init__` — and `PBM.get_p` on the untrained state (`gammas = []`) always
returns `[]`; no untrained-model error is ever raised. -/
theorem get_p_untrained_silent_defaults :
    (∀ (rho : ℚ) (grades : List ℤ),
      RCM.get_p rho grades = List.replicate grades.length rho) ∧
    (∀ (grades : List ℤ) (epsilon : ℚ), PBM.get_p [] grades epsilon = []) :=
  ⟨rcm_get_p_replicate, fun _ _ => by simp [PBM.get_p]⟩

/-- C4: `process_bins` on the bucket `[3,5,7]` reports median `4` (the code
averages the middle entry with the *first* entry for odd length), not the
median `5` the spec states; and a bucket holding only sentinel `-1` entries
raises an `IndexError` (`none`) instead of reporting `has_info = False`,
while an empty bucket does report the no-data marker. -/
theorem process_bins_failing_eval :
    process_bins [[3, 5, 7]] = some [some (3, 7, 4)] ∧
    process_bins [[-1, -1]] = none ∧
    process_bins [[]] = some [none] := by
  refine ⟨?_, rfl, rfl⟩
  norm_num [process_bins, processBin, stripSentinels, sortAsc, insertSorted, listMin, listMax,
    List.mapM, List.mapM.loop, Int.ceil_intCast]
  rfl

/-- C3 (counterexample): on the ranking pair `([(0,1)], [(0,1)])` — one
shared duplicate document — with `max_interleav = 2`, both `td_interleaving`
and `prob_interleaving` raise an exception (`IndexError` resp. an error from
`np.random.choice` on an empty pool) instead of returning the one-element
partial list, for the concrete random streams shown (ample fuel `10`). -/
theorem interleaving_exhausted_counterexample :
    td_interleaving ([((0 : ℤ), (1 : ℤ))], [((0 : ℤ), (1 : ℤ))]) 2 (fun _ => true) 10 =
      RunRes.crash ∧
    prob_interleaving ([((0 : ℤ), (1 : ℤ))], [((0 : ℤ), (1 : ℤ))]) 2 (fun _ => true)
      (fun _ => 0) 10 = RunRes.crash :=
  ⟨rfl, rfl⟩

/-- C9 (counterexample): for `gamma[0] = 1/2` and a learned
`alpha[(7,3)] = 1/2`, a not-clicked document contributes
`gamma*(1-alpha)/(1-gamma*alpha) = 1/3` to `gamma_sum[0]`, which differs
from the spec's `gamma*epsilon/(1-gamma*(1-epsilon)) = 1/11` at
`epsilon = 0.1`; and the re-estimation is the add-one-smoothed
`(sum+1)/(n_queries+1) = 1/2`, not the plain average `0/1 = 0`. -/
theorem PBM_update_pseudocount_counterexample :
    (PBM.update (fun _ => 0) (fun _ => 0) ⟨[((7, 3), 1/2)], [1/2]⟩
        ⟨-1, "q", -1, []⟩ [] [] ⟨1, "q", 3, [7]⟩ [] (-1)).2.2.1 = [1/3] ∧
    ((1 : ℚ)/3 ≠ 1/2 * (1/10) / (1 - 1/2 * (1 - 1/10))) ∧
    PBM.relearnGammas [0] [0] 1 = [1/2] ∧ ((1 : ℚ)/2 ≠ 0 / 1) := by
  refine ⟨?_, by norm_num, ?_, by norm_num⟩
  · norm_num [PBM.update, PBM.updateUrls, PBM.extendGammas, PBM.extendZeros, PBM.appendInits,
      PBM.lookupKV, PBM.setKV]
  · norm_num [PBM.relearnGammas, PBM.relearnAux]

/-- C2: `compute_sample_size` returns the sentinel `-1` exactly when
`p1 = 0.5` (for every `alpha`, `beta` and every quantile/sqrt
implementation); otherwise it returns
`ceil(((z_alpha*sigma0 + z_beta*sigma1)/(p1-0.5))^2)` with
`sigma0 = sqrt(1/4)`, `sigma1 = sqrt(p1*(1-p1))`, which is positive whenever
the weighted quantile sum is positive (as it is for the standard-normal
quantiles at the default `alpha = 0.05`, `beta = 0.10`). -/
theorem compute_sample_size_spec (ppf sqrtf : ℚ → ℚ) (p1 alpha beta : ℚ) :
    (compute_sample_size ppf sqrtf p1 alpha beta = -1 ↔ p1 = 1/2) ∧
    (p1 ≠ 1/2 →
      compute_sample_size ppf sqrtf p1 alpha beta =
        Int.ceil (((ppf (1 - alpha) * sqrtf (1/4) +
          ppf (1 - beta) * sqrtf (p1 * (1 - p1))) / (p1 - 1/2)) ^ 2)) ∧
    (p1 ≠ 1/2 →
      0 < ppf (1 - alpha) * sqrtf (1/4) + ppf (1 - beta) * sqrtf (p1 * (1 - p1)) →
      0 < compute_sample_size ppf sqrtf p1 alpha beta) := by
  have hval : compute_sample_size ppf sqrtf p1 alpha beta =
      if p1 - 1/2 = 0 then -1
      else Int.ceil (((ppf (1 - alpha) * sqrtf ((1 : ℚ)/2 * (1 - 1/2)) +
        ppf (1 - beta) * sqrtf (p1 * (1 - p1))) / (p1 - 1/2)) ^ 2) := rfl
  rw [show ((1 : ℚ)/2 * (1 - 1/2)) = 1/4 by norm_num] at hval
  by_cases hp : p1 - 1/2 = 0
  · have hp' : p1 = 1/2 := by linarith
    rw [hval, if_pos hp]
    exact ⟨⟨fun _ => hp', fun _ => rfl⟩, fun h => absurd hp' h, fun h => absurd hp' h⟩
  · have hp' : p1 ≠ 1/2 := fun h => hp (by rw [h]; ring)
    rw [hval, if_neg hp]
    refine ⟨⟨fun h => ?_, fun h => absurd h hp'⟩, fun _ => rfl, fun _ hpos => ?_⟩
    · exfalso
      have h0 : (0 : ℤ) ≤ Int.ceil (((ppf (1 - alpha) * sqrtf (1/4) +
          ppf (1 - beta) * sqrtf (p1 * (1 - p1))) / (p1 - 1/2)) ^ 2) :=
        Int.ceil_nonneg (sq_nonneg _)
      omega
    · exact Int.ceil_pos.mpr
        (pow_two_pos_of_ne_zero (div_ne_zero (ne_of_gt hpos) hp))

/-- Witness for C2 at `p1 = 0.7`, `alpha = 0.05`, `beta = 0.10`: the result
is the fixed positive golden value `50`. -/
theorem compute_sample_size_spec_witness :
    compute_sample_size ppfW sqrtW (7/10) (1/20) (1/10) = 50 ∧
    0 < compute_sample_size ppfW sqrtW (7/10) (1/20) (1/10) := by
  have h := compute_sample_size_spec ppfW sqrtW (7/10) (1/20) (1/10)
  refine ⟨?_, h.2.2 (by norm_num) (by norm_num [ppfW, sqrtW])⟩
  rw [h.2.1 (by norm_num)]
  norm_num [ppfW, sqrtW]
  rw [Int.ceil_eq_iff]
  norm_num

/-- C6: `PBM.get_p` returns exactly
`min(len(gammas), len(relevance_grades))` probabilities; the `i`-th is
`gammas[i]*epsilon` for a zero grade and `gammas[i]*(1-epsilon)` otherwise,
and with `gammas` entries in `[0,1]` and `epsilon` in `(0,1)` every returned
value lies in `[0,1]`. -/
theorem PBM_get_p_spec (gammas : List ℚ) (grades : List ℤ) (epsilon : ℚ)
    (hg : ∀ g ∈ gammas, 0 ≤ g ∧ g ≤ 1) (he0 : 0 < epsilon) (he1 : epsilon < 1) :
    (PBM.get_p gammas grades epsilon).length = min gammas.length grades.length ∧
    (∀ i, i < min gammas.length grades.length →
      (PBM.get_p gammas grades epsilon).getD i 0 =
        if grades.getD i 0 = 0 then gammas.getD i 0 * epsilon
        else gammas.getD i 0 * (1 - epsilon)) ∧
    (∀ v ∈ PBM.get_p gammas grades epsilon, 0 ≤ v ∧ v ≤ 1) := by
  refine ⟨by simp [PBM.get_p], ?_, ?_⟩
  · intro i hi
    unfold PBM.get_p
    rw [List.getD_eq_getElem?_getD, List.getElem?_map, List.getElem?_range hi]
    simp
  · intro v hv
    unfold PBM.get_p at hv
    simp only [List.mem_map, List.mem_range] at hv
    obtain ⟨i, hi, rfl⟩ := hv
    have hig : i < gammas.length := lt_of_lt_of_le hi (min_le_left _ _)
    have hmem : gammas.getD i 0 ∈ gammas := by
      rw [List.getD_eq_getElem?_getD, List.getElem?_eq_getElem hig]
      exact List.getElem_mem hig
    obtain ⟨h0, h1⟩ := hg _ hmem
    by_cases hz : grades.getD i 0 = 0 <;> simp only [hz, if_true, if_false] <;>
      constructor <;> nlinarith

/-- Witness for C6 on `gammas = [1/2, 1/4]`, grades `[0, 3, 2]`,
`epsilon = 1/10`. -/
theorem PBM_get_p_spec_witness :
    (PBM.get_p [1/2, 1/4] [0, 3, 2] (1/10)).length = min 2 3 ∧
    (∀ i, i < min 2 3 →
      (PBM.get_p [1/2, 1/4] [0, 3, 2] (1/10)).getD i 0 =
        if ([0, 3, 2] : List ℤ).getD i 0 = 0 then ([1/2, 1/4] : List ℚ).getD i 0 * (1/10)
        else ([1/2, 1/4] : List ℚ).getD i 0 * (1 - 1/10)) ∧
    (∀ v ∈ PBM.get_p [1/2, 1/4] [0, 3, 2] (1/10), 0 ≤ v ∧ v ≤ 1) := by
  have h := PBM_get_p_spec [1/2, 1/4] [0, 3, 2] (1/10)
    (by intro g hg; fin_cases hg <;> norm_num) (by norm_num) (by norm_num)
  simpa using h

/-- C8: `RCM.get_clicks` performs one Bernoulli draw per position, returning
exactly the indices `i < len(relevance_grades)` whose draw satisfied
`draws i ≤ rho`, in strictly increasing order; the all-miss outcome is the
empty list, returned as a normal value (no resampling). -/
theorem RCM_get_clicks_spec (rho : ℚ) (grades : List ℤ) (draws : ℕ → ℚ) :
    RCM.get_clicks rho grades draws =
      (List.range grades.length).filter (fun i => decide (draws i ≤ rho)) ∧
    List.Sorted (· < ·) (RCM.get_clicks rho grades draws) ∧
    ((∀ i, i < grades.length → rho < draws i) →
      RCM.get_clicks rho grades draws = []) := by
  have hmain : RCM.get_clicks rho grades draws =
      (List.range grades.length).filter (fun i => decide (draws i ≤ rho)) := by
    unfold RCM.get_clicks
    simp only [rcm_get_p_replicate, List.length_replicate]
    apply List.filter_congr
    intro i hi
    rw [List.mem_range] at hi
    rw [List.getD_eq_getElem?_getD, List.getElem?_replicate, if_pos hi]
    simp
  refine ⟨hmain, ?_, fun h => ?_⟩
  · rw [hmain]
    exact (List.sorted_lt_range _).filter _
  · rw [hmain, List.filter_eq_nil_iff]
    intro a ha
    rw [List.mem_range] at ha
    simpa using not_le.mpr (h a ha)

/-- Witness for C8: with every draw above `rho`, the all-miss empty list is
returned. -/
theorem RCM_get_clicks_spec_witness :
    RCM.get_clicks (1/2) [0, 0, 0] (fun _ => 1) = [] :=
  (RCM_get_clicks_spec (1/2) [0, 0, 0] (fun _ => 1)).2.2 (fun _ _ => by norm_num)

/-- Every element of a list is bounded by the running `max` fold. -/
theorem le_foldl_max (xs : List ℕ) : ∀ a : ℕ, a ≤ xs.foldl max a ∧
    ∀ g ∈ xs, g ≤ xs.foldl max a := by
  induction xs with
  | nil => intro a; exact ⟨le_refl a, by simp⟩
  | cons x rest ih =>
    intro a
    obtain ⟨h1, h2⟩ := ih (max a x)
    refine ⟨le_trans (le_max_left a x) h1, ?_⟩
    intro g hg
    rcases List.mem_cons.mp hg with rfl | hg'
    · exact le_trans (le_max_right a g) h1
    · exact h2 g hg'

/-- Every grade is bounded by the Python `max` of its list. -/
theorem le_listMaxNat (gs : List ℕ) (g : ℕ) (hg : g ∈ gs) : g ≤ listMaxNat gs := by
  cases gs with
  | nil => cases hg
  | cons x rest =>
    unfold listMaxNat
    rcases List.mem_cons.mp hg with rfl | hg'
    · exact (le_foldl_max rest g).1
    · exact (le_foldl_max rest x).2 g hg'

/-- The default grade-to-probability map is non-negative. -/
theorem R_default_nonneg (g max_g : ℕ) : 0 ≤ R_default g max_g := by
  unfold R_default
  have h1 : (1 : ℚ) ≤ 2 ^ g := by
    simpa using pow_le_pow_right (by norm_num : (1 : ℚ) ≤ 2) (Nat.zero_le g)
  have h2 : (0 : ℚ) < 2 ^ max_g := by positivity
  exact div_nonneg (by linarith) h2.le

/-- The default grade-to-probability map stays below one for grades bounded
by the maximum grade. -/
theorem R_default_lt_one (g max_g : ℕ) (h : g ≤ max_g) : R_default g max_g < 1 := by
  unfold R_default
  have h2 : (0 : ℚ) < 2 ^ max_g := by positivity
  rw [div_lt_one h2]
  have : (2 : ℚ) ^ g ≤ 2 ^ max_g := pow_le_pow_right (by norm_num) h
  linarith

/-- The leftover probability mass of `ERR` is positive when every grade is
bounded by the maximum. -/
theorem prodOneMinus_pos (max_g : ℕ) (gs : List ℕ) (h : ∀ g ∈ gs, g ≤ max_g) :
    0 < prodOneMinus max_g gs := by
  unfold prodOneMinus
  apply List.prod_pos
  intro a ha
  obtain ⟨g, hg, rfl⟩ := List.mem_map.mp ha
  have := R_default_lt_one g max_g (h g hg)
  linarith

/-- The `ERR` accumulator is non-negative. -/
theorem errAux_nonneg (max_g : ℕ) : ∀ (gs : List ℕ) (p : ℚ) (r : ℕ), 0 ≤ p →
    (∀ g ∈ gs, g ≤ max_g) → 0 ≤ errAux max_g gs p r := by
  intro gs
  induction gs with
  | nil => intro p r _ _; simp [errAux]
  | cons g rest ih =>
    intro p r hp hle
    simp only [errAux]
    have hR0 := R_default_nonneg g max_g
    have hR1 : R_default g max_g < 1 := R_default_lt_one g max_g (hle g (List.mem_cons_self g rest))
    have h1 : 0 ≤ p * R_default g max_g / (r : ℚ) := by positivity
    have h2 : 0 ≤ errAux max_g rest (p * (1 - R_default g max_g)) (r + 1) :=
      ih _ _ (by nlinarith) (fun g' hg' => hle g' (List.mem_cons_of_mem _ hg'))
    linarith

/-- The `ERR` accumulator plus the leftover mass never exceeds the incoming
probability `p` (at ranks `r ≥ 1`). -/
theorem errAux_le (max_g : ℕ) : ∀ (gs : List ℕ) (p : ℚ) (r : ℕ), 0 ≤ p → 1 ≤ r →
    (∀ g ∈ gs, g ≤ max_g) →
    errAux max_g gs p r + p * prodOneMinus max_g gs ≤ p := by
  intro gs
  induction gs with
  | nil => intro p r hp _ _; simp [errAux, prodOneMinus]
  | cons g rest ih =>
    intro p r hp hr hle
    have hR0 := R_default_nonneg g max_g
    have hR1 : R_default g max_g < 1 := R_default_lt_one g max_g (hle g (List.mem_cons_self g rest))
    have hp' : 0 ≤ p * (1 - R_default g max_g) := by nlinarith
    have hIH := ih (p * (1 - R_default g max_g)) (r + 1) hp' (by omega)
      (fun g' hg' => hle g' (List.mem_cons_of_mem _ hg'))
    have hprod : prodOneMinus max_g (g :: rest) =
        (1 - R_default g max_g) * prodOneMinus max_g rest := by
      simp [prodOneMinus]
    have hdiv : p * R_default g max_g / (r : ℚ) ≤ p * R_default g max_g := by
      apply div_le_self (by positivity)
      exact_mod_cast hr
    simp only [errAux]
    rw [hprod]
    nlinarith [hIH, hdiv]

/-- C10: for every non-empty list of non-negative graded relevances, `ERR`
with the default grade-to-probability function lies in `[0, 1)`, and hence
the effect size `ΔERR` of any ranking pair lies strictly between `-1` and
`1`, so non-negative effect sizes always fall inside the `[0,1)` bucketing
domain. -/
theorem ERR_bounds (g1 g2 : List ℕ) (h1 : g1 ≠ []) (h2 : g2 ≠ []) :
    (0 ≤ ERR g1 ∧ ERR g1 < 1) ∧
    (-1 < ERR g1 - ERR g2 ∧ ERR g1 - ERR g2 < 1) := by
  have key : ∀ gs : List ℕ, 0 ≤ ERR gs ∧ ERR gs < 1 := by
    intro gs
    have hle : ∀ g ∈ gs, g ≤ listMaxNat gs := fun g hg => le_listMaxNat gs g hg
    constructor
    · exact errAux_nonneg _ gs 1 1 (by norm_num) hle
    · have h := errAux_le (listMaxNat gs) gs 1 1 (by norm_num) (by norm_num) hle
      have hp := prodOneMinus_pos (listMaxNat gs) gs hle
      unfold ERR
      nlinarith [h, hp]
  obtain ⟨a1, b1⟩ := key g1
  obtain ⟨a2, b2⟩ := key g2
  exact ⟨⟨a1, b1⟩, by constructor <;> linarith⟩

/-- Witness for C10 on the concrete grade lists `[1, 0]` and `[0, 2]`. -/
theorem ERR_bounds_witness :
    (0 ≤ ERR [1, 0] ∧ ERR [1, 0] < 1) ∧
    (-1 < ERR [1, 0] - ERR [0, 2] ∧ ERR [1, 0] - ERR [0, 2] < 1) :=
  ERR_bounds [1, 0] [0, 2] (by simp) (by simp)

/-- One simulation trial updates the win counters exactly by the
tie/strict-majority rule on the attributed click counts. -/
theorem simulationStep_eq {α : Type} (pair : α) (f : ℕ → α → List (ℤ × ℤ))
    (c : ℕ → List ℤ → List ℕ) (w : ℕ × ℕ) (t : ℕ) :
    simulationStep pair f c w t =
      (if (trialCounts pair f c t).1 ≤ (trialCounts pair f c t).2 then w.1 + 1 else w.1,
       if (trialCounts pair f c t).2 ≤ (trialCounts pair f c t).1 then w.2 + 1 else w.2) := by
  unfold simulationStep trialCounts
  dsimp only
  split_ifs <;> first | rfl | (exfalso; omega)

/-- The trial fold of `interleaving_simulation` counts exactly the
`simWins0`/`simWins1` trials, and every trial contributes to at least one
counter. -/
theorem simFold_eq {α : Type} (pair : α) (f : ℕ → α → List (ℤ × ℤ))
    (c : ℕ → List ℤ → List ℕ) :
    ∀ k : ℕ,
      (List.range k).foldl (simulationStep pair f c) (0, 0) =
        (simWins0 pair f c k, simWins1 pair f c k) ∧
      k ≤ simWins0 pair f c k + simWins1 pair f c k := by
  intro k
  induction k with
  | zero => simp [simWins0, simWins1]
  | succ k ih =>
    obtain ⟨hf, hs⟩ := ih
    have hrange : List.range (k + 1) = List.range k ++ [k] := List.range_succ k
    constructor
    · rw [hrange, List.foldl_append, hf]
      simp only [List.foldl_cons, List.foldl_nil]
      rw [simulationStep_eq]
      unfold simWins0 simWins1
      rw [hrange, List.filter_append, List.filter_append,
        List.length_append, List.length_append]
      simp only [List.filter_cons, List.filter_nil]
      by_cases hA : (trialCounts pair f c k).1 ≤ (trialCounts pair f c k).2 <;>
        by_cases hB : (trialCounts pair f c k).2 ≤ (trialCounts pair f c k).1 <;>
          simp [hA, hB, simWins0, simWins1]
    · unfold simWins0 simWins1
      rw [hrange, List.filter_append, List.filter_append,
        List.length_append, List.length_append]
      simp only [List.filter_cons, List.filter_nil]
      by_cases hA : (trialCounts pair f c k).1 ≤ (trialCounts pair f c k).2 <;>
        by_cases hB : (trialCounts pair f c k).2 ≤ (trialCounts pair f c k).1 <;>
          simp [hA, hB] <;> unfold simWins0 simWins1 at hs <;> omega

/-- C1: every trial of `interleaving_simulation` increments both win
counters on a tie of attributed clicks (including the zero-click trial),
only `wins1` when E got strictly more, and only `wins0` when P got strictly
more; over `k ≥ 1` trials the returned probability is
`wins1 / (wins0 + wins1)` with `wins0`/`wins1` the counts of
P-non-losing/E-non-losing trials. -/
theorem interleaving_simulation_spec {α : Type} (pair : α) (k : ℕ)
    (f : ℕ → α → List (ℤ × ℤ)) (c : ℕ → List ℤ → List ℕ) (hk : 1 ≤ k) :
    (∀ (w : ℕ × ℕ) (t : ℕ),
      simulationStep pair f c w t =
        (if (trialCounts pair f c t).1 ≤ (trialCounts pair f c t).2 then w.1 + 1 else w.1,
         if (trialCounts pair f c t).2 ≤ (trialCounts pair f c t).1 then w.2 + 1 else w.2)) ∧
    0 < simWins0 pair f c k + simWins1 pair f c k ∧
    interleaving_simulation pair k f c =
      (simWins1 pair f c k : ℚ) /
        ((simWins0 pair f c k : ℚ) + (simWins1 pair f c k : ℚ)) := by
  refine ⟨fun w t => simulationStep_eq pair f c w t, ?_, ?_⟩
  · have := (simFold_eq pair f c k).2
    omega
  · unfold interleaving_simulation
    rw [(simFold_eq pair f c k).1]

/-- A successful inner scan of `td_interleaving` only ever returns a
document whose duplicate id is not yet in `found`. -/
theorem findFreshAux_fresh (limit : ℕ) (found : List ℤ) :
    ∀ (rest : List (ℤ × ℤ)) (ptr : ℕ) (doc : ℤ × ℤ) (q : ℕ),
      findFreshAux limit found rest ptr = some (some doc, q) → doc.2 ∉ found := by
  intro rest
  induction rest with
  | nil => intro ptr doc q h; simp [findFreshAux] at h
  | cons d rest ih =>
    intro ptr doc q h
    unfold findFreshAux at h
    by_cases hd : d.2 ∉ found
    · rw [if_pos hd] at h
      simp only [Option.some.injEq, Prod.mk.injEq] at h
      obtain ⟨h1, -⟩ := h
      exact h1 ▸ hd
    · rw [if_neg hd] at h
      by_cases hl : ptr + 1 = limit
      · rw [if_pos hl] at h; simp at h
      · rw [if_neg hl] at h; exact ih (ptr + 1) doc q h

/-- Appending an emission whose tag is not positive cannot create a
duplicated nonzero tag. -/
theorem tagOnce_append_nonpos (l : List (ℤ × ℤ × ℕ)) (rel tag : ℤ) (team : ℕ)
    (h : TagOnce l) (ht : ¬ 0 < tag) : TagOnce (l ++ [(rel, tag, team)]) := by
  intro t htp
  rw [List.countP_append]
  have hz : List.countP (fun e => decide (e.2.1 = t)) [(rel, tag, team)] = 0 := by
    have htag : tag ≠ t := by omega
    simp [List.countP_cons, htag]
  rw [hz]
  simpa using h t htp

/-- Appending an emission whose tag is not yet in `found` cannot create a
duplicated nonzero tag, provided every already-emitted nonzero tag is in
`found`. -/
theorem tagOnce_append_fresh (l : List (ℤ × ℤ × ℕ)) (found : List ℤ) (rel tag : ℤ)
    (team : ℕ) (h : TagOnce l)
    (hmem : ∀ e ∈ l, 0 < e.2.1 → e.2.1 ∈ found) (hfresh : tag ∉ found) :
    TagOnce (l ++ [(rel, tag, team)]) := by
  intro t htp
  rw [List.countP_append]
  by_cases he : tag = t
  · subst he
    have h0 : List.countP (fun e => decide (e.2.1 = tag)) l = 0 := by
      rw [List.countP_eq_zero]
      intro e hel
      simp only [decide_eq_true_eq]
      intro hq
      exact hfresh (hq ▸ hmem e hel (by omega))
    have h1 : List.countP (fun e => decide (e.2.1 = tag)) [(rel, tag, team)] ≤ 1 := by
      simp [List.countP_cons]
    omega
  · have hz : List.countP (fun e => decide (e.2.1 = t)) [(rel, tag, team)] = 0 := by
      simp [List.countP_cons, he]
    rw [hz]
    simpa using h t htp

/-- One `td_interleaving` iteration preserves the tag invariant. -/
theorem tdStep_inv (rp re : List (ℤ × ℤ)) (limit : ℕ) (prio : Bool) (s s' : TDState)
    (h : tdStep rp re limit prio s = some s') (hinv : TDInv s) : TDInv s' := by
  obtain ⟨hT, hM⟩ := hinv
  unfold tdStep at h
  by_cases hc : s.p_team < s.e_team ∨ (s.p_team = s.e_team ∧ prio)
  · rw [if_pos hc] at h
    rcases hf : findFresh rp limit s.found_duplicates s.p_pointer with _ | ⟨od, ptr⟩ <;>
      rw [hf] at h
    · cases h
    · cases od with
      | none =>
        obtain rfl := Option.some.inj h
        exact ⟨hT, hM⟩
      | some doc =>
        dsimp only at h
        have hfresh : doc.2 ∉ s.found_duplicates := findFreshAux_fresh _ _ _ _ _ _ hf
        by_cases hd : 0 < doc.2
        · rw [if_pos hd] at h
          obtain rfl := Option.some.inj h
          refine ⟨tagOnce_append_fresh _ _ _ _ _ hT hM hfresh, ?_⟩
          intro e he hp
          rcases List.mem_append.mp he with he' | he'
          · exact List.mem_append_left _ (hM e he' hp)
          · rw [List.mem_singleton] at he'
            subst he'
            exact List.mem_append_right _ (List.mem_singleton.mpr rfl)
        · rw [if_neg hd] at h
          obtain rfl := Option.some.inj h
          refine ⟨tagOnce_append_nonpos _ _ _ _ hT hd, ?_⟩
          intro e he hp
          rcases List.mem_append.mp he with he' | he'
          · exact hM e he' hp
          · rw [List.mem_singleton] at he'
            subst he'
            exact absurd hp hd
  · rw [if_neg hc] at h
    rcases hf : findFresh re limit s.found_duplicates s.e_pointer with _ | ⟨od, ptr⟩ <;>
      rw [hf] at h
    · cases h
    · cases od with
      | none =>
        obtain rfl := Option.some.inj h
        exact ⟨hT, hM⟩
      | some doc =>
        dsimp only at h
        have hfresh : doc.2 ∉ s.found_duplicates := findFreshAux_fresh _ _ _ _ _ _ hf
        by_cases hd : 0 < doc.2
        · rw [if_pos hd] at h
          obtain rfl := Option.some.inj h
          refine ⟨tagOnce_append_fresh _ _ _ _ _ hT hM hfresh, ?_⟩
          intro e he hp
          rcases List.mem_append.mp he with he' | he'
          · exact List.mem_append_left _ (hM e he' hp)
          · rw [List.mem_singleton] at he'
            subst he'
            exact List.mem_append_right _ (List.mem_singleton.mpr rfl)
        · rw [if_neg hd] at h
          obtain rfl := Option.some.inj h
          refine ⟨tagOnce_append_nonpos _ _ _ _ hT hd, ?_⟩
          intro e he hp
          rcases List.mem_append.mp he with he' | he'
          · exact hM e he' hp
          · rw [List.mem_singleton] at he'
            subst he'
            exact absurd hp hd

/-- One `prob_interleaving` iteration preserves the tag invariant. -/
theorem piStep_inv (rp re : List (ℤ × ℤ)) (prio : Bool) (sel : ℕ) (s s' : PIState)
    (h : piStep rp re prio sel s = some s') (hinv : PIInv s) : PIInv s' := by
  obtain ⟨hT, hM⟩ := hinv
  unfold piStep at h
  by_cases hc : (prio ∧ s.p_indices ≠ []) ∨ s.e_indices = []
  · rw [if_pos hc] at h
    rcases Option.bind_eq_some.mp h with ⟨i, _, h⟩
    rcases Option.bind_eq_some.mp h with ⟨p', _, h⟩
    rcases Option.bind_eq_some.mp h with ⟨d, _, h⟩
    by_cases hz : d.2 = 0
    · rw [if_pos hz] at h
      obtain rfl := Option.some.inj h
      refine ⟨tagOnce_append_nonpos _ _ _ _ hT (by omega), ?_⟩
      intro e he hp
      rcases List.mem_append.mp he with he' | he'
      · exact hM e he' hp
      · rw [List.mem_singleton] at he'
        subst he'
        exact absurd hp (by simp [hz])
    · rw [if_neg hz] at h
      by_cases hfr : 0 < d.2 ∧ d.2 ∉ s.found_duplicates
      · rw [if_pos hfr] at h
        rcases Option.bind_eq_some.mp h with ⟨j, _, h⟩
        rcases Option.bind_eq_some.mp h with ⟨e', _, h⟩
        obtain rfl := Option.some.inj h
        refine ⟨tagOnce_append_fresh _ _ _ _ _ hT hM hfr.2, ?_⟩
        intro e he hp
        rcases List.mem_append.mp he with he' | he'
        · exact List.mem_append_left _ (hM e he' hp)
        · rw [List.mem_singleton] at he'
          subst he'
          exact List.mem_append_right _ (List.mem_singleton.mpr rfl)
      · rw [if_neg hfr] at h
        obtain rfl := Option.some.inj h
        exact ⟨hT, hM⟩
  · rw [if_neg hc] at h
    rcases Option.bind_eq_some.mp h with ⟨i, _, h⟩
    rcases Option.bind_eq_some.mp h with ⟨e', _, h⟩
    rcases Option.bind_eq_some.mp h with ⟨d, _, h⟩
    by_cases hz : d.2 = 0
    · rw [if_pos hz] at h
      obtain rfl := Option.some.inj h
      refine ⟨tagOnce_append_nonpos _ _ _ _ hT (by omega), ?_⟩
      intro e he hp
      rcases List.mem_append.mp he with he' | he'
      · exact hM e he' hp
      · rw [List.mem_singleton] at he'
        subst he'
        exact absurd hp (by simp [hz])
    · rw [if_neg hz] at h
      by_cases hfr : 0 < d.2 ∧ d.2 ∉ s.found_duplicates
      · rw [if_pos hfr] at h
        rcases Option.bind_eq_some.mp h with ⟨j, _, h⟩
        rcases Option.bind_eq_some.mp h with ⟨p'', _, h⟩
        obtain rfl := Option.some.inj h
        refine ⟨tagOnce_append_fresh _ _ _ _ _ hT hM hfr.2, ?_⟩
        intro e he hp
        rcases List.mem_append.mp he with he' | he'
        · exact List.mem_append_left _ (hM e he' hp)
        · rw [List.mem_singleton] at he'
          subst he'
          exact List.mem_append_right _ (List.mem_singleton.mpr rfl)
      · rw [if_neg hfr] at h
        obtain rfl := Option.some.inj h
        exact ⟨hT, hM⟩

/-- A successful `td_interleaving` loop run started from an invariant state
emits no nonzero tag twice. -/
theorem tdLoop_tagOnce (rp re : List (ℤ × ℤ)) (limit maxI : ℕ) (prios : ℕ → Bool) :
    ∀ (fuel n : ℕ) (s : TDState) (l : List (ℤ × ℤ × ℕ)),
      tdLoop rp re limit maxI prios fuel n s = RunRes.ok l → TDInv s → TagOnce l := by
  intro fuel
  induction fuel with
  | zero =>
    intro n s l h hinv
    unfold tdLoop at h
    by_cases hl : s.interleaved.length < maxI
    · rw [if_pos hl] at h; cases h
    · rw [if_neg hl] at h; cases h; exact hinv.1
  | succ fuel ih =>
    intro n s l h hinv
    unfold tdLoop at h
    by_cases hl : s.interleaved.length < maxI
    · rw [if_pos hl] at h
      rcases hs : tdStep rp re limit (prios n) s with _ | s' <;> rw [hs] at h
      · cases h
      · exact ih (n + 1) s' l h (tdStep_inv _ _ _ _ _ _ hs hinv)
    · rw [if_neg hl] at h; cases h; exact hinv.1

/-- A successful `prob_interleaving` loop run started from an invariant
state emits no nonzero tag twice. -/
theorem piLoop_tagOnce (rp re : List (ℤ × ℤ)) (maxI : ℕ) (prios : ℕ → Bool)
    (sels : ℕ → ℕ) :
    ∀ (fuel n : ℕ) (s : PIState) (l : List (ℤ × ℤ × ℕ)),
      piLoop rp re maxI prios sels fuel n s = RunRes.ok l → PIInv s → TagOnce l := by
  intro fuel
  induction fuel with
  | zero =>
    intro n s l h hinv
    unfold piLoop at h
    by_cases hl : s.interleaved.length < maxI
    · rw [if_pos hl] at h; cases h
    · rw [if_neg hl] at h; cases h; exact hinv.1
  | succ fuel ih =>
    intro n s l h hinv
    unfold piLoop at h
    by_cases hl : s.interleaved.length < maxI
    · rw [if_pos hl] at h
      rcases hs : piStep rp re (prios n) (sels n) s with _ | s' <;> rw [hs] at h
      · cases h
      · exact ih (n + 1) s' l h (piStep_inv _ _ _ _ _ _ hs hinv)
    · rw [if_neg hl] at h; cases h; exact hinv.1

/-- C5: each interleaver independently — whatever the ranking pair, depth,
fuel and random streams — never returns a list containing two emissions
carrying the same nonzero duplicate-tag (this holds even without the
duplicate-tag well-formedness assumption on the pair). -/
theorem interleaving_no_duplicate_tag :
    (∀ (rp re : List (ℤ × ℤ)) (maxI fuel : ℕ) (prios : ℕ → Bool)
      (l : List (ℤ × ℤ × ℕ)),
      td_interleaving (rp, re) maxI prios fuel = RunRes.ok l → TagOnce l) ∧
    (∀ (rp re : List (ℤ × ℤ)) (maxI fuel : ℕ) (prios : ℕ → Bool) (sels : ℕ → ℕ)
      (l : List (ℤ × ℤ × ℕ)),
      prob_interleaving (rp, re) maxI prios sels fuel = RunRes.ok l → TagOnce l) := by
  constructor
  · intro rp re maxI fuel prios l h
    exact tdLoop_tagOnce rp re rp.length maxI prios fuel 0 _ l h
      ⟨fun t _ => by simp, by simp⟩
  · intro rp re maxI fuel prios sels l h
    exact piLoop_tagOnce rp re maxI prios sels fuel 0 _ l h
      ⟨fun t _ => by simp, by simp⟩

/-- Witness for C5 on the pair `([(0,1),(5,0)], [(0,1),(7,0)])` sharing the
duplicate tag `1`: both interleavers succeed at depth 2 and neither output
repeats the tag. -/
theorem interleaving_no_duplicate_tag_witness :
    TagOnce [((0 : ℤ), (1 : ℤ), (0 : ℕ)), (7, 0, 1)] ∧
    TagOnce [((0 : ℤ), (1 : ℤ), (0 : ℕ)), (5, 0, 0)] :=
  ⟨interleaving_no_duplicate_tag.1 [((0 : ℤ), (1 : ℤ)), ((5 : ℤ), (0 : ℤ))]
      [((0 : ℤ), (1 : ℤ)), ((7 : ℤ), (0 : ℤ))] 2 5 (fun _ => true) _ rfl,
    interleaving_no_duplicate_tag.2 [((0 : ℤ), (1 : ℤ)), ((5 : ℤ), (0 : ℤ))]
      [((0 : ℤ), (1 : ℤ)), ((7 : ℤ), (0 : ℤ))] 2 5 (fun _ => true) (fun _ => 0) _ rfl⟩

/-- Witness for C1 on two deterministic trials: trial 0 is an E win, trial 1
a P win, so the returned probability is `1 / (1 + 1)`. -/
theorem interleaving_simulation_spec_witness :
    (∀ (w : ℕ × ℕ) (t : ℕ),
      simulationStep () fW cW w t =
        (if (trialCounts () fW cW t).1 ≤ (trialCounts () fW cW t).2 then w.1 + 1 else w.1,
         if (trialCounts () fW cW t).2 ≤ (trialCounts () fW cW t).1 then w.2 + 1 else w.2)) ∧
    0 < simWins0 () fW cW 2 + simWins1 () fW cW 2 ∧
    interleaving_simulation () 2 fW cW =
      (simWins1 () fW cW 2 : ℚ) /
        ((simWins0 () fW cW 2 : ℚ) + (simWins1 () fW cW 2 : ℚ)) :=
  interleaving_simulation_spec () 2 fW cW (by norm_num)

/-- `np.random.choice` on a non-empty pool succeeds and draws a member of
the pool. -/
theorem pickIndex_mem (l : List ℕ) (sel : ℕ) (h : l ≠ []) :
    ∃ i, pickIndex l sel = some i ∧ i ∈ l := by
  cases l with
  | nil => exact absurd rfl h
  | cons x xs =>
    refine ⟨(x :: xs).getD (sel % (x :: xs).length) 0, rfl, ?_⟩
    have hlt : sel % (x :: xs).length < (x :: xs).length :=
      Nat.mod_lt _ (by simp)
    rw [List.getD_eq_getElem?_getD, List.getElem?_eq_getElem hlt]
    exact List.getElem_mem hlt

/-- With no duplicate tags, equal-length rankings and
`max_interleav ≤ length`, the `td_interleaving` loop always completes with
exactly `max_interleav` emissions. -/
theorem tdLoop_ok_no_dup (rp re : List (ℤ × ℤ)) (maxI : ℕ) (prios : ℕ → Bool)
    (hlen : re.length = rp.length)
    (hdp : ∀ d ∈ rp, d.2 = 0) (hde : ∀ d ∈ re, d.2 = 0)
    (hmax : maxI ≤ 2 * rp.length) :
    ∀ (fuel n : ℕ) (s : TDState),
      s.p_pointer = s.p_team → s.e_pointer = s.e_team →
      s.p_team + s.e_team = s.interleaved.length →
      s.found_duplicates = [] →
      s.interleaved.length ≤ maxI →
      maxI ≤ fuel + s.interleaved.length →
      ∃ l, tdLoop rp re rp.length maxI prios fuel n s = RunRes.ok l ∧
        l.length = maxI := by
  intro fuel
  induction fuel with
  | zero =>
    intro n s _ _ _ _ hle hfuel
    refine ⟨s.interleaved, ?_, by omega⟩
    unfold tdLoop
    rw [if_neg (by omega)]
  | succ fuel ih =>
    intro n s hpp hep hsum hfound hle hfuel
    by_cases hl : s.interleaved.length < maxI
    · by_cases hc : s.p_team < s.e_team ∨ (s.p_team = s.e_team ∧ prios n)
      · have hple : s.p_team ≤ s.e_team := by rcases hc with h | ⟨h, _⟩ <;> omega
        have hptr : s.p_pointer < rp.length := by omega
        set d := rp.get ⟨s.p_pointer, hptr⟩ with hd
        have htag : d.2 = 0 := hdp _ (List.get_mem rp s.p_pointer hptr)
        have hff : findFresh rp rp.length s.found_duplicates s.p_pointer =
            some (some d, s.p_pointer + 1) := by
          unfold findFresh
          rw [hfound, List.drop_eq_getElem_cons hptr]
          unfold findFreshAux
          rw [if_pos (by simp)]
          rfl
        have hstep : tdStep rp re rp.length (prios n) s = some
            { interleaved := s.interleaved ++ [(d.1, d.2, 0)]
              p_team := s.p_team + 1
              e_team := s.e_team
              p_pointer := s.p_pointer + 1
              e_pointer := s.e_pointer
              found_duplicates := s.found_duplicates } := by
          unfold tdStep
          rw [if_pos hc, hff]
          dsimp only
          rw [if_neg (by rw [htag]; omega)]
        obtain ⟨l, hok, hlLen⟩ := ih (n + 1)
          { interleaved := s.interleaved ++ [(d.1, d.2, 0)]
            p_team := s.p_team + 1
            e_team := s.e_team
            p_pointer := s.p_pointer + 1
            e_pointer := s.e_pointer
            found_duplicates := s.found_duplicates }
          (show s.p_pointer + 1 = s.p_team + 1 by omega)
          hep
          (show s.p_team + 1 + s.e_team = (s.interleaved ++ [(d.1, d.2, 0)]).length by
            simp only [List.length_append, List.length_cons, List.length_nil]; omega)
          hfound
          (show (s.interleaved ++ [(d.1, d.2, 0)]).length ≤ maxI by
            simp only [List.length_append, List.length_cons, List.length_nil]; omega)
          (show maxI ≤ fuel + (s.interleaved ++ [(d.1, d.2, 0)]).length by
            simp only [List.length_append, List.length_cons, List.length_nil]; omega)
        refine ⟨l, ?_, hlLen⟩
        unfold tdLoop
        rw [if_pos hl, hstep]
        exact hok
      · have hele : s.e_team ≤ s.p_team := not_lt.mp (fun h => hc (Or.inl h))
        have hptr : s.e_pointer < re.length := by omega
        set d := re.get ⟨s.e_pointer, hptr⟩ with hd
        have htag : d.2 = 0 := hde _ (List.get_mem re s.e_pointer hptr)
        have hff : findFresh re rp.length s.found_duplicates s.e_pointer =
            some (some d, s.e_pointer + 1) := by
          unfold findFresh
          rw [hfound, List.drop_eq_getElem_cons hptr]
          unfold findFreshAux
          rw [if_pos (by simp)]
          rfl
        have hstep : tdStep rp re rp.length (prios n) s = some
            { interleaved := s.interleaved ++ [(d.1, d.2, 1)]
              p_team := s.p_team
              e_team := s.e_team + 1
              p_pointer := s.p_pointer
              e_pointer := s.e_pointer + 1
              found_duplicates := s.found_duplicates } := by
          unfold tdStep
          rw [if_neg hc, hff]
          dsimp only
          rw [if_neg (by rw [htag]; omega)]
        obtain ⟨l, hok, hlLen⟩ := ih (n + 1)
          { interleaved := s.interleaved ++ [(d.1, d.2, 1)]
            p_team := s.p_team
            e_team := s.e_team + 1
            p_pointer := s.p_pointer
            e_pointer := s.e_pointer + 1
            found_duplicates := s.found_duplicates }
          hpp
          (show s.e_pointer + 1 = s.e_team + 1 by omega)
          (show s.p_team + (s.e_team + 1) = (s.interleaved ++ [(d.1, d.2, 1)]).length by
            simp only [List.length_append, List.length_cons, List.length_nil]; omega)
          hfound
          (show (s.interleaved ++ [(d.1, d.2, 1)]).length ≤ maxI by
            simp only [List.length_append, List.length_cons, List.length_nil]; omega)
          (show maxI ≤ fuel + (s.interleaved ++ [(d.1, d.2, 1)]).length by
            simp only [List.length_append, List.length_cons, List.length_nil]; omega)
        refine ⟨l, ?_, hlLen⟩
        unfold tdLoop
        rw [if_pos hl, hstep]
        exact hok
    · refine ⟨s.interleaved, ?_, by omega⟩
      unfold tdLoop
      rw [if_neg hl]

/-- With no duplicate tags, equal-length rankings and
`max_interleav ≤ length`, the `prob_interleaving` loop always completes with
exactly `max_interleav` emissions. -/
theorem piLoop_ok_no_dup (rp re : List (ℤ × ℤ)) (maxI : ℕ) (prios : ℕ → Bool)
    (sels : ℕ → ℕ) (hlen : re.length = rp.length)
    (hdp : ∀ d ∈ rp, d.2 = 0) (hde : ∀ d ∈ re, d.2 = 0)
    (hmax : maxI ≤ 2 * rp.length) :
    ∀ (fuel n : ℕ) (s : PIState),
      (∀ i ∈ s.p_indices, i < rp.length) →
      (∀ i ∈ s.e_indices, i < re.length) →
      s.p_indices.length + s.interleaved.countP (fun e => decide (e.2.2 = 0)) =
        rp.length →
      s.e_indices.length + s.interleaved.countP (fun e => decide (e.2.2 = 1)) =
        rp.length →
      s.interleaved.countP (fun e => decide (e.2.2 = 0)) +
        s.interleaved.countP (fun e => decide (e.2.2 = 1)) = s.interleaved.length →
      s.interleaved.length ≤ maxI →
      maxI ≤ fuel + s.interleaved.length →
      ∃ l, piLoop rp re maxI prios sels fuel n s = RunRes.ok l ∧
        l.length = maxI := by
  intro fuel
  induction fuel with
  | zero =>
    intro n s _ _ _ _ _ hle hfuel
    refine ⟨s.interleaved, ?_, by omega⟩
    unfold piLoop
    rw [if_neg (by omega)]
  | succ fuel ih =>
    intro n s hP hE hpc hec hcc hle hfuel
    by_cases hl : s.interleaved.length < maxI
    · by_cases hc : (prios n ∧ s.p_indices ≠ []) ∨ s.e_indices = []
      · have hpNe : s.p_indices ≠ [] := by
          rcases hc with ⟨_, h⟩ | h
          · exact h
          · intro h0
            rw [h] at hec
            rw [h0] at hpc
            simp at hec hpc
            omega
        obtain ⟨i, hpick, hi⟩ := pickIndex_mem s.p_indices (sels n) hpNe
        have hiL : i < rp.length := hP i hi
        have htag : (rp.get ⟨i, hiL⟩).2 = 0 := hdp _ (List.get_mem rp i hiL)
        have hrem : removeFirst s.p_indices i = some (s.p_indices.erase i) := by
          unfold removeFirst
          rw [if_pos hi]
        have hget : rp.get? i = some (rp.get ⟨i, hiL⟩) := List.get?_eq_get hiL
        have hstep : piStep rp re (prios n) (sels n) s = some
            { interleaved :=
                s.interleaved ++ [((rp.get ⟨i, hiL⟩).1, (rp.get ⟨i, hiL⟩).2, 0)]
              p_indices := s.p_indices.erase i
              e_indices := s.e_indices
              found_duplicates := s.found_duplicates } := by
          unfold piStep
          rw [if_pos hc, hpick]
          simp only [Option.some_bind]
          rw [hrem]
          simp only [Option.some_bind]
          rw [hget]
          simp only [Option.some_bind]
          rw [if_pos htag]
        have hpLen : (s.p_indices.erase i).length + 1 = s.p_indices.length :=
          List.length_erase_add_one hi
        have hcnt0 : (s.interleaved ++ [((rp.get ⟨i, hiL⟩).1, (rp.get ⟨i, hiL⟩).2, 0)]).countP
            (fun e : ℤ × ℤ × ℕ => decide (e.2.2 = 0)) =
            s.interleaved.countP (fun e => decide (e.2.2 = 0)) + 1 := by
          simp [List.countP_append, List.countP_cons]
        have hcnt1 : (s.interleaved ++ [((rp.get ⟨i, hiL⟩).1, (rp.get ⟨i, hiL⟩).2, 0)]).countP
            (fun e : ℤ × ℤ × ℕ => decide (e.2.2 = 1)) =
            s.interleaved.countP (fun e => decide (e.2.2 = 1)) := by
          simp [List.countP_append, List.countP_cons]
        obtain ⟨l, hok, hlLen⟩ := ih (n + 1)
          { interleaved := s.interleaved ++ [((rp.get ⟨i, hiL⟩).1, (rp.get ⟨i, hiL⟩).2, 0)]
            p_indices := s.p_indices.erase i
            e_indices := s.e_indices
            found_duplicates := s.found_duplicates }
          (fun j hj => hP j (List.mem_of_mem_erase hj))
          hE
          (by dsimp only; rw [hcnt0]; omega)
          (by dsimp only; rw [hcnt1]; omega)
          (by dsimp only; rw [hcnt0, hcnt1]
              simp only [List.length_append, List.length_cons, List.length_nil]; omega)
          (by dsimp only
              simp only [List.length_append, List.length_cons, List.length_nil]; omega)
          (by dsimp only
              simp only [List.length_append, List.length_cons, List.length_nil]; omega)
        refine ⟨l, ?_, hlLen⟩
        unfold piLoop
        rw [if_pos hl, hstep]
        exact hok
      · have heNe : s.e_indices ≠ [] := fun h0 => hc (Or.inr h0)
        obtain ⟨j, hpick, hj⟩ := pickIndex_mem s.e_indices (sels n) heNe
        have hjL : j < re.length := hE j hj
        have htag : (re.get ⟨j, hjL⟩).2 = 0 := hde _ (List.get_mem re j hjL)
        have hrem : removeFirst s.e_indices j = some (s.e_indices.erase j) := by
          unfold removeFirst
          rw [if_pos hj]
        have hget : re.get? j = some (re.get ⟨j, hjL⟩) := List.get?_eq_get hjL
        have hstep : piStep rp re (prios n) (sels n) s = some
            { interleaved :=
                s.interleaved ++ [((re.get ⟨j, hjL⟩).1, (re.get ⟨j, hjL⟩).2, 1)]
              p_indices := s.p_indices
              e_indices := s.e_indices.erase j
              found_duplicates := s.found_duplicates } := by
          unfold piStep
          rw [if_neg hc, hpick]
          simp only [Option.some_bind]
          rw [hrem]
          simp only [Option.some_bind]
          rw [hget]
          simp only [Option.some_bind]
          rw [if_pos htag]
        have heLen : (s.e_indices.erase j).length + 1 = s.e_indices.length :=
          List.length_erase_add_one hj
        have hcnt0 : (s.interleaved ++ [((re.get ⟨j, hjL⟩).1, (re.get ⟨j, hjL⟩).2, 1)]).countP
            (fun e : ℤ × ℤ × ℕ => decide (e.2.2 = 0)) =
            s.interleaved.countP (fun e => decide (e.2.2 = 0)) := by
          simp [List.countP_append, List.countP_cons]
        have hcnt1 : (s.interleaved ++ [((re.get ⟨j, hjL⟩).1, (re.get ⟨j, hjL⟩).2, 1)]).countP
            (fun e : ℤ × ℤ × ℕ => decide (e.2.2 = 1)) =
            s.interleaved.countP (fun e => decide (e.2.2 = 1)) + 1 := by
          simp [List.countP_append, List.countP_cons]
        obtain ⟨l, hok, hlLen⟩ := ih (n + 1)
          { interleaved := s.interleaved ++ [((re.get ⟨j, hjL⟩).1, (re.get ⟨j, hjL⟩).2, 1)]
            p_indices := s.p_indices
            e_indices := s.e_indices.erase j
            found_duplicates := s.found_duplicates }
          hP
          (fun j' hj' => hE j' (List.mem_of_mem_erase hj'))
          (by dsimp only; rw [hcnt0]; omega)
          (by dsimp only; rw [hcnt1]; omega)
          (by dsimp only; rw [hcnt0, hcnt1]
              simp only [List.length_append, List.length_cons, List.length_nil]; omega)
          (by dsimp only
              simp only [List.length_append, List.length_cons, List.length_nil]; omega)
          (by dsimp only
              simp only [List.length_append, List.length_cons, List.length_nil]; omega)
        refine ⟨l, ?_, hlLen⟩
        unfold piLoop
        rw [if_pos hl, hstep]
        exact hok
    · refine ⟨s.interleaved, ?_, by omega⟩
      unfold piLoop
      rw [if_neg hl]


/-- `getD` after `set` at a different index is unchanged. -/
theorem getD_set_ne (l : List ℚ) (i j : ℕ) (a d : ℚ) (h : i ≠ j) :
    (l.set i a).getD j d = l.getD j d := by
  rw [List.getD_eq_getElem?_getD, List.getD_eq_getElem?_getD, List.getElem?_set_ne h]

/-- `getD` after `set` at the same (in-range) index returns the new value. -/
theorem getD_set_self (l : List ℚ) (i : ℕ) (a d : ℚ) (h : i < l.length) :
    (l.set i a).getD i d = a := by
  rw [List.getD_eq_getElem?_getD, List.getElem?_set_eq_of_lt a h]
  rfl

/-- The `PBM.update` url loop never touches `gamma_sum` entries below its
starting rank. -/
theorem updateUrls_gsum_lower (ainit : ℤ × ℤ → ℚ) (q_id : ℤ) (clicks : List ℤ)
    (gammas : List ℚ) :
    ∀ (us : List ℤ) (r : ℕ) (alphas : List ((ℤ × ℤ) × ℚ))
      (asum : List ((ℤ × ℤ) × PBM.AlphaStat)) (gsum : List ℚ) (j : ℕ), j < r →
      (PBM.updateUrls ainit q_id clicks gammas us r alphas asum gsum).2.2.getD j 0 =
        gsum.getD j 0 := by
  intro us
  induction us with
  | nil => intro r alphas asum gsum j _; rfl
  | cons u rest ih =>
    intro r alphas asum gsum j hj
    unfold PBM.updateUrls
    dsimp only
    by_cases hcl : u ∈ clicks
    · rw [if_pos hcl, ih _ _ _ _ j (by omega), getD_set_ne _ _ _ _ _ (by omega)]
    · rw [if_neg hcl, ih _ _ _ _ j (by omega), getD_set_ne _ _ _ _ _ (by omega)]

/-- The `PBM.update` url loop adds, at each rank `r0 + j`, the clicked
target `1` or the EM pseudo-count
`gamma * (1 - alpha) / (1 - gamma * alpha)` with `alpha` the current learned
attractiveness of the document at that rank (all url keys assumed already
present in `alphas`). -/
theorem updateUrls_gamma (ainit : ℤ × ℤ → ℚ) (q_id : ℤ) (clicks : List ℤ)
    (gammas : List ℚ) :
    ∀ (us : List ℤ) (r0 : ℕ) (alphas : List ((ℤ × ℤ) × ℚ))
      (asum : List ((ℤ × ℤ) × PBM.AlphaStat)) (gsum : List ℚ),
      (∀ u ∈ us, PBM.lookupKV (u, q_id) alphas ≠ none) →
      r0 + us.length ≤ gsum.length →
      ∀ j, j < us.length →
        (PBM.updateUrls ainit q_id clicks gammas us r0 alphas asum gsum).2.2.getD
            (r0 + j) 0 =
          gsum.getD (r0 + j) 0 +
            (if us.getD j 0 ∈ clicks then 1
             else gammas.getD (r0 + j) 0 *
                 (1 - (PBM.lookupKV (us.getD j 0, q_id) alphas).getD 0) /
               (1 - gammas.getD (r0 + j) 0 *
                 (PBM.lookupKV (us.getD j 0, q_id) alphas).getD 0)) := by
  intro us
  induction us with
  | nil => intro r0 alphas asum gsum _ _ j hj; exact absurd hj (by simp)
  | cons u rest ih =>
    intro r0 alphas asum gsum hcov hlen j hj
    have hu : PBM.lookupKV (u, q_id) alphas ≠ none :=
      hcov u (List.mem_cons_self u rest)
    obtain ⟨av, hav⟩ := Option.ne_none_iff_exists'.mp hu
    unfold PBM.updateUrls
    dsimp only
    rw [hav]
    dsimp only
    cases j with
    | zero =>
      simp only [Nat.add_zero]
      by_cases hcl : u ∈ clicks
      · rw [if_pos hcl,
          updateUrls_gsum_lower ainit q_id clicks gammas rest (r0 + 1) _ _ _ r0
            (by omega),
          getD_set_self _ _ _ _ (by simp at hlen; omega)]
        simp [hcl]
      · rw [if_neg hcl,
          updateUrls_gsum_lower ainit q_id clicks gammas rest (r0 + 1) _ _ _ r0
            (by omega),
          getD_set_self _ _ _ _ (by simp at hlen; omega)]
        simp [hcl]
    | succ j' =>
      have hj' : j' < rest.length := by simp at hj; omega
      rw [show r0 + (j' + 1) = r0 + 1 + j' from by omega]
      by_cases hcl : u ∈ clicks
      · rw [if_pos hcl]
        rw [ih (r0 + 1) alphas _ (gsum.set r0 (gsum.getD r0 0 + 1))
          (fun u' hu' => hcov u' (List.mem_cons_of_mem _ hu'))
          (by simp at hlen ⊢; omega) j' hj']
        rw [getD_set_ne _ _ _ _ _ (by omega)]
        simp
      · rw [if_neg hcl]
        rw [ih (r0 + 1) alphas _ (gsum.set r0 (gsum.getD r0 0 +
            gammas.getD r0 0 * (1 - (PBM.lookupKV (u, q_id) alphas).getD 0) /
              (1 - gammas.getD r0 0 * (PBM.lookupKV (u, q_id) alphas).getD 0)))
          (fun u' hu' => hcov u' (List.mem_cons_of_mem _ hu'))
          (by simp at hlen ⊢; omega) j' hj']
        rw [getD_set_ne _ _ _ _ _ (by omega)]
        simp

/-- The gamma re-estimation loop never touches entries below its starting
rank. -/
theorem relearnAux_lower (n_queries : ℤ) :
    ∀ (gs : List ℚ) (r : ℕ) (gammas : List ℚ) (j : ℕ), j < r →
      (PBM.relearnAux n_queries gs r gammas).getD j 0 = gammas.getD j 0 := by
  intro gs
  induction gs with
  | nil => intro r gammas j _; rfl
  | cons g rest ih =>
    intro r gammas j hj
    unfold PBM.relearnAux
    rw [ih (r + 1) _ j (by omega), getD_set_ne _ _ _ _ _ (by omega)]

/-- The gamma re-estimation writes `(gamma_sum[r] + 1) / (n_queries + 1)` at
every in-range rank. -/
theorem relearnAux_getD (n_queries : ℤ) :
    ∀ (gs : List ℚ) (r0 : ℕ) (gammas : List ℚ) (j : ℕ),
      j < gs.length → r0 + j < gammas.length →
      (PBM.relearnAux n_queries gs r0 gammas).getD (r0 + j) 0 =
        (gs.getD j 0 + 1) / ((n_queries : ℚ) + 1) := by
  intro gs
  induction gs with
  | nil => intro r0 gammas j hj _; exact absurd hj (by simp)
  | cons g rest ih =>
    intro r0 gammas j hj hjg
    unfold PBM.relearnAux
    cases j with
    | zero =>
      simp only [Nat.add_zero]
      rw [relearnAux_lower n_queries rest (r0 + 1) _ r0 (by omega),
        getD_set_self _ _ _ _ (by omega)]
      simp
    | succ j' =>
      have hidx : r0 + 1 + j' = r0 + (j' + 1) := by omega
      have := ih (r0 + 1) (gammas.set r0 ((g + 1) / ((n_queries : ℚ) + 1))) j'
        (by simp at hj; omega) (by simp; omega)
      rw [hidx] at this
      rw [this]
      simp

/-- C9 (amended): during a `PBM.update` pass over a query event (keys
already initialised), the contribution to `gamma_sum[r]` for the document at
rank `r` is `1` if it was clicked and otherwise the EM pseudo-count
`gamma[r] * (1 - alpha[uq]) / (1 - gamma[r] * alpha[uq])`, with `alpha[uq]`
the learned per-(document, query) attractiveness — not the fixed epsilon
constant; and `_learn` re-estimates `gamma[r]` as the add-one-smoothed
`(gamma_sum[r] + 1) / (n_queries + 1)`. -/
theorem PBM_update_gamma_spec (ainit : ℤ × ℤ → ℚ) (ginit : ℕ → ℚ)
    (model : PBM.PBMModel) (item prev_q : PBM.DBItem)
    (alpha_sum : List ((ℤ × ℤ) × PBM.AlphaStat)) (gamma_sum : List ℚ)
    (clicks : List ℤ) (hq : item.a = "q")
    (hcov : ∀ u ∈ prev_q.urls, PBM.lookupKV (u, prev_q.a_id) model.alphas ≠ none)
    (r : ℕ) (hr : r < prev_q.urls.length) :
    ((PBM.update ainit ginit model item alpha_sum gamma_sum prev_q clicks
        (-1)).2.2.1.getD r 0 =
      (PBM.extendZeros prev_q.urls.length gamma_sum).getD r 0 +
        (if prev_q.urls.getD r 0 ∈ clicks then 1
         else
           (PBM.extendGammas ginit prev_q.urls.length model.gammas).getD r 0 *
               (1 - (PBM.lookupKV (prev_q.urls.getD r 0, prev_q.a_id)
                 model.alphas).getD 0) /
             (1 - (PBM.extendGammas ginit prev_q.urls.length model.gammas).getD r 0 *
               (PBM.lookupKV (prev_q.urls.getD r 0, prev_q.a_id)
                 model.alphas).getD 0))) ∧
    (∀ (gammas gs : List ℚ) (nq : ℤ) (i : ℕ), i < gs.length → i < gammas.length →
      (PBM.relearnGammas gammas gs nq).getD i 0 =
        (gs.getD i 0 + 1) / ((nq : ℚ) + 1)) := by
  constructor
  · have hn : ¬ (0 : ℤ) ≤ -1 := by norm_num
    unfold PBM.update
    rw [if_pos hq]
    dsimp only
    rw [if_neg hn]
    have := updateUrls_gamma ainit prev_q.a_id clicks
      (PBM.extendGammas ginit prev_q.urls.length model.gammas)
      prev_q.urls 0 model.alphas alpha_sum
      (PBM.extendZeros prev_q.urls.length gamma_sum)
      hcov
      (by simp [PBM.extendZeros]; omega)
      r hr
    simpa using this
  · intro gammas gs nq i h1 h2
    have := relearnAux_getD nq gs 0 gammas i h1 (by simpa using h2)
    simpa using this

/-- Witness for the amended C9: concrete not-clicked update at
`gamma = alpha = 1/2` contributes `1/3`, and relearning sum `0` over one
query gives `1/2`. -/
theorem PBM_update_gamma_spec_witness :
    (PBM.update (fun _ => 0) (fun _ => 0) ⟨[((7, 3), 1/2)], [1/2]⟩
        ⟨-1, "q", -1, []⟩ [] [] ⟨1, "q", 3, [7]⟩ [] (-1)).2.2.1.getD 0 0 =
      (PBM.extendZeros (([7] : List ℤ)).length ([] : List ℚ)).getD 0 0 +
        (if (([7] : List ℤ)).getD 0 0 ∈ ([] : List ℤ) then 1
         else
           (PBM.extendGammas (fun _ => 0) (([7] : List ℤ)).length [1/2]).getD 0 0 *
               (1 - (PBM.lookupKV ((([7] : List ℤ)).getD 0 0, 3)
                 [((7, 3), 1/2)]).getD 0) /
             (1 - (PBM.extendGammas (fun _ => 0) (([7] : List ℤ)).length [1/2]).getD 0 0 *
               (PBM.lookupKV ((([7] : List ℤ)).getD 0 0, 3)
                 [((7, 3), 1/2)]).getD 0)) := by
  have h := PBM_update_gamma_spec (fun _ => 0) (fun _ => 0) ⟨[((7, 3), 1/2)], [1/2]⟩
    ⟨-1, "q", -1, []⟩ ⟨1, "q", 3, [7]⟩ [] [] [] rfl
    (by intro u hu; simp at hu; subst hu; simp [PBM.lookupKV]) 0 (by simp)
  exact h.1

/-- Every tag recorded in `tagsOf` is positive. -/
theorem mem_tagsOf_pos (l : List (ℤ × ℤ × ℕ)) : ∀ t ∈ tagsOf l, 0 < t := by
  intro t ht
  obtain ⟨e, he, rfl⟩ := List.mem_map.mp ht
  have := List.mem_filter.mp he
  simpa using this.2

/-- `tagsOf` counts exactly the tagged emissions. -/
theorem tagsOf_length (l : List (ℤ × ℤ × ℕ)) :
    (tagsOf l).length = l.countP (fun e => decide (0 < e.2.1)) := by
  rw [tagsOf, List.length_map, ← List.countP_eq_length_filter]

/-- The tag of any tagged emission appears in `tagsOf`. -/
theorem mem_tagsOf_of_emit (l : List (ℤ × ℤ × ℕ)) (e : ℤ × ℤ × ℕ) (he : e ∈ l)
    (hp : 0 < e.2.1) : e.2.1 ∈ tagsOf l :=
  List.mem_map.mpr ⟨e, List.mem_filter.mpr ⟨he, by simpa using hp⟩, rfl⟩

/-- `tagsOf` gains exactly the new tag on a tagged emission. -/
theorem tagsOf_append_pos (l : List (ℤ × ℤ × ℕ)) (r t : ℤ) (m : ℕ) (ht : 0 < t) :
    tagsOf (l ++ [(r, t, m)]) = tagsOf l ++ [t] := by
  rw [tagsOf, tagsOf, List.filter_append, List.map_append]
  congr 1
  simp [ht]

/-- `tagsOf` is unchanged by an untagged emission. -/
theorem tagsOf_append_nonpos (l : List (ℤ × ℤ × ℕ)) (r t : ℤ) (m : ℕ)
    (ht : ¬ 0 < t) : tagsOf (l ++ [(r, t, m)]) = tagsOf l := by
  rw [tagsOf, tagsOf, List.filter_append]
  simp [ht]

/-- In a well-formed pair every positive tag occurs at most once in the P
ranking. -/
theorem wf_unique_p (ranking_p ranking_e : List (ℤ × ℤ))
    (hwf : WFPair ranking_p ranking_e) (t : ℤ) (ht : 0 < t) :
    ranking_p.countP (fun d => decide (d.2 = t)) ≤ 1 := by
  by_cases h0 : ranking_p.countP (fun d => decide (d.2 = t)) = 0
  · omega
  · have hpos : 0 < ranking_p.countP (fun d => decide (d.2 = t)) := by omega
    obtain ⟨d, hd, hdt⟩ := List.countP_pos_iff.mp hpos
    simp only [decide_eq_true_eq] at hdt
    have := hwf.2.2.1 d hd (by omega)
    rwa [hdt] at this

/-- In a well-formed pair every positive tag occurs at most once in the E
ranking. -/
theorem wf_unique_e (ranking_p ranking_e : List (ℤ × ℤ))
    (hwf : WFPair ranking_p ranking_e) (t : ℤ) (ht : 0 < t) :
    ranking_e.countP (fun d => decide (d.2 = t)) ≤ 1 := by
  by_cases h0 : ranking_e.countP (fun d => decide (d.2 = t)) = 0
  · omega
  · have hpos : 0 < ranking_e.countP (fun d => decide (d.2 = t)) := by omega
    obtain ⟨d, hd, hdt⟩ := List.countP_pos_iff.mp hpos
    simp only [decide_eq_true_eq] at hdt
    have := hwf.2.2.2.1 d hd (by omega)
    rwa [hdt] at this

/-- Enlarging the found set can only lower the count of unfound tags. -/
theorem countP_not_mem_mono (l : List (ℤ × ℤ)) (F F' : List ℤ)
    (h : ∀ t ∈ F, t ∈ F') :
    l.countP (fun d => decide (d.2 ∉ F')) ≤ l.countP (fun d => decide (d.2 ∉ F)) := by
  apply List.countP_mono_left
  intro d _ hd
  simp only [decide_eq_true_eq] at hd ⊢
  exact fun hmem => hd (h _ hmem)

/-- Counting documents whose tag is in `t :: F` is at most the count for
`t` plus the count for `F`. -/
theorem countP_mem_cons_le (l : List (ℤ × ℤ)) (t : ℤ) (F : List ℤ) :
    l.countP (fun d => decide (d.2 ∈ t :: F)) ≤
      l.countP (fun d => decide (d.2 = t)) +
        l.countP (fun d => decide (d.2 ∈ F)) := by
  induction l with
  | nil => simp
  | cons d rest ih =>
    rw [List.countP_cons, List.countP_cons, List.countP_cons]
    by_cases h1 : d.2 = t <;> by_cases h2 : d.2 ∈ F
    · rw [if_pos (by simp [List.mem_cons, h1]), if_pos (by simp [h1]),
        if_pos (by simp [h2])]
      omega
    · rw [if_pos (by simp [List.mem_cons, h1]), if_pos (by simp [h1]),
        if_neg (by simp [h2])]
      omega
    · rw [if_pos (by simp [List.mem_cons, h2]), if_neg (by simp [h1]),
        if_pos (by simp [h2])]
      omega
    · rw [if_neg (by simp [List.mem_cons, h1, h2]), if_neg (by simp [h1]),
        if_neg (by simp [h2])]
      omega

/-- If every tag of `F` occurs at most once in `l`, the documents of `l`
carrying a tag of `F` number at most `F.length`. -/
theorem countP_mem_tags_le (l : List (ℤ × ℤ)) :
    ∀ F : List ℤ, (∀ t ∈ F, l.countP (fun d => decide (d.2 = t)) ≤ 1) →
      l.countP (fun d => decide (d.2 ∈ F)) ≤ F.length := by
  intro F
  induction F with
  | nil => intro _; simp
  | cons t F' ih =>
    intro hone
    have h1 := countP_mem_cons_le l t F'
    have h2 := hone t (List.mem_cons_self t F')
    have h3 := ih (fun t' ht' => hone t' (List.mem_cons_of_mem _ ht'))
    simp only [List.length_cons]
    omega

/-- Two distinct positions carrying the same tag force a tag count of at
least two. -/
theorem two_le_countP_tag (l : List (ℤ × ℤ)) (i k : ℕ) (hi : i < l.length)
    (hk : k < l.length) (hik : i ≠ k) (t : ℤ) (h1 : (l.get ⟨i, hi⟩).2 = t)
    (h2 : (l.get ⟨k, hk⟩).2 = t) :
    2 ≤ l.countP (fun d => decide (d.2 = t)) := by
  have key : ∀ (a b : ℕ) (ha : a < l.length) (hb : b < l.length), a < b →
      (l.get ⟨a, ha⟩).2 = t → (l.get ⟨b, hb⟩).2 = t →
      2 ≤ l.countP (fun d => decide (d.2 = t)) := by
    intro a b ha hb hab hat hbt
    have hsplit := List.take_append_drop b l
    have hcount : l.countP (fun d => decide (d.2 = t)) =
        (l.take b).countP (fun d => decide (d.2 = t)) +
          (l.drop b).countP (fun d => decide (d.2 = t)) := by
      conv_lhs => rw [← hsplit]
      rw [List.countP_append]
    have hdropPos : 0 < (l.drop b).countP (fun d => decide (d.2 = t)) := by
      rw [List.drop_eq_getElem_cons hb, List.countP_cons]
      simp only [List.get_eq_getElem] at hbt
      simp [hbt]
    have htakePos : 0 < (l.take b).countP (fun d => decide (d.2 = t)) := by
      rw [List.countP_pos_iff]
      refine ⟨l.get ⟨a, ha⟩, ?_, by simpa using hat⟩
      have hlt : a < (l.take b).length := by
        rw [List.length_take]; omega
      have := List.getElem_take' l ha hab
      simp only [List.get_eq_getElem]
      rw [this]
      exact List.getElem_mem hlt
    omega
  rcases Nat.lt_or_ge i k with h | h
  · exact key i k hi hk h h1 h2
  · have : k < i := by omega
    exact key k i hk hi this h2 h1

/-- `findIdx?` with an equality test finds a position holding the sought
element, returning `start + position`. -/
theorem findIdx?_mem_aux (d : ℤ × ℤ) :
    ∀ (l : List (ℤ × ℤ)), d ∈ l → ∀ i : ℕ,
      ∃ k, ∃ hk : k < l.length,
        l.findIdx? (fun x => decide (x = d)) i = some (i + k) ∧
          l.get ⟨k, hk⟩ = d := by
  intro l
  induction l with
  | nil => intro hd; cases hd
  | cons x xs ih =>
    intro hd i
    by_cases hx : x = d
    · refine ⟨0, by simp, ?_, by simpa using hx⟩
      simp [List.findIdx?_cons, hx]
    · have hd' : d ∈ xs := by
        rcases List.mem_cons.mp hd with h | h
        · exact absurd h.symm hx
        · exact h
      obtain ⟨k, hk, hfind, hget⟩ := ih hd' (i + 1)
      refine ⟨k + 1, by simpa using hk, ?_, by simpa using hget⟩
      rw [List.findIdx?_cons, if_neg (by simpa using hx), hfind]
      congr 1
      omega

/-- Documents split into those whose tag is outside `F` and those whose tag
is in `F`. -/
theorem countP_mem_split (l : List (ℤ × ℤ)) (F : List ℤ) :
    l.countP (fun d => decide (d.2 ∉ F)) + l.countP (fun d => decide (d.2 ∈ F)) =
      l.length := by
  induction l with
  | nil => rfl
  | cons d l ih =>
    rw [List.countP_cons, List.countP_cons, List.length_cons]
    by_cases h : d.2 ∈ F
    · rw [if_neg (by simp only [decide_eq_true_eq]; exact fun hn => hn h),
        if_pos (by simpa using h)]
      omega
    · rw [if_pos (by simpa using h), if_neg (by simpa using h)]
      omega

/-- Emissions split into tagged and untagged ones. -/
theorem countP_tag_split (l : List (ℤ × ℤ × ℕ)) :
    l.countP (fun e => decide (0 < e.2.1)) +
      l.countP (fun e => decide (e.2.1 ≤ 0)) = l.length := by
  induction l with
  | nil => rfl
  | cons e l ih =>
    rw [List.countP_cons, List.countP_cons, List.length_cons]
    by_cases h : 0 < e.2.1
    · rw [if_pos (by simpa using h),
        if_neg (by simp only [decide_eq_true_eq]; omega)]
      omega
    · rw [if_neg (by simpa using h),
        if_pos (by simp only [decide_eq_true_eq]; omega)]
      omega

/-- Counting over a prefix and the matching suffix recovers the count over
the whole list. -/
theorem countP_take_add_drop (l : List (ℤ × ℤ)) (n : ℕ) (p : ℤ × ℤ → Bool) :
    (l.take n).countP p + (l.drop n).countP p = l.countP p := by
  conv_rhs => rw [← List.take_append_drop n l]
  rw [List.countP_append]

/-- When every emission's team is `0` or `1`, the two team counts add up to
the length. -/
theorem countP_team_split (l : List (ℤ × ℤ × ℕ))
    (h : ∀ e ∈ l, e.2.2 = 0 ∨ e.2.2 = 1) :
    l.countP (fun e => decide (e.2.2 = 0)) +
      l.countP (fun e => decide (e.2.2 = 1)) = l.length := by
  induction l with
  | nil => rfl
  | cons e l ih =>
    have he := h e (List.mem_cons_self e l)
    have ih' := ih (fun x hx => h x (List.mem_cons_of_mem _ hx))
    rw [List.countP_cons, List.countP_cons, List.length_cons]
    rcases he with h0 | h1
    · rw [if_pos (by simpa using h0),
        if_neg (by simp only [decide_eq_true_eq]; omega)]
      omega
    · rw [if_neg (by simp only [decide_eq_true_eq]; omega),
        if_pos (by simpa using h1)]
      omega

/-- A count of documents whose tag matches a conjunction is at most the
count for the team condition alone. -/
theorem countP_team_tag_le (l : List (ℤ × ℤ × ℕ)) (m : ℕ) :
    l.countP (fun e => decide (e.2.2 = m ∧ 0 < e.2.1)) ≤
      l.countP (fun e => decide (e.2.2 = m)) := by
  apply List.countP_mono_left
  intro e _ he
  simp only [decide_eq_true_eq] at he ⊢
  exact he.1

/-- When strictly fewer suffix documents carry a found tag than the suffix
holds, and the suffix reaches exactly to `limit`, the inner scan of
`td_interleaving` succeeds: it skips a block of found-tag documents and
returns the first fresh document after it. -/
theorem findFreshAux_success (limit : ℕ) (F : List ℤ) :
    ∀ (rest : List (ℤ × ℤ)) (ptr : ℕ),
      ptr + rest.length = limit →
      rest.countP (fun d => decide (d.2 ∈ F)) < rest.length →
      ∃ (skipped : List (ℤ × ℤ)) (doc : ℤ × ℤ) (rest' : List (ℤ × ℤ)),
        rest = skipped ++ doc :: rest' ∧
        (∀ d ∈ skipped, d.2 ∈ F) ∧ doc.2 ∉ F ∧
        findFreshAux limit F rest ptr =
          some (some doc, ptr + skipped.length + 1) := by
  intro rest
  induction rest with
  | nil => intro ptr _ hcount; simp at hcount
  | cons d rest ih =>
    intro ptr hlim hcount
    by_cases hd : d.2 ∉ F
    · refine ⟨[], d, rest, rfl, by simp, hd, ?_⟩
      unfold findFreshAux
      rw [if_pos hd]
      simp
    · push_neg at hd
      have hcount' : rest.countP (fun d => decide (d.2 ∈ F)) < rest.length := by
        rw [List.countP_cons, if_pos (by simpa using hd)] at hcount
        simp only [List.length_cons] at hcount
        omega
      have hne : rest ≠ [] := by
        intro h0
        rw [h0] at hcount'
        simp at hcount'
      have hlim' : ptr + 1 + rest.length = limit := by
        simp only [List.length_cons] at hlim
        omega
      have hptr1 : ptr + 1 ≠ limit := by
        have : 0 < rest.length := List.length_pos.mpr hne
        omega
      obtain ⟨skipped, doc, rest', hsplit, hskip, hdoc, hres⟩ :=
        ih (ptr + 1) hlim' hcount'
      refine ⟨d :: skipped, doc, rest', by rw [hsplit]; rfl, ?_, hdoc, ?_⟩
      · intro x hx
        rcases List.mem_cons.mp hx with h | hx'
        · rw [h]; exact hd
        · exact hskip x hx'
      · unfold findFreshAux
        rw [if_neg (by simpa using hd), if_neg hptr1, hres]
        simp only [Option.some.injEq, Prod.mk.injEq, List.length_cons]
        exact ⟨trivial, by omega⟩

/-- On a well-formed pair with `max_interleav` within the ranking length,
one `td_interleaving` iteration below the target length always succeeds and
emits exactly one document, preserving the full invariant. -/
theorem tdStep_full (rp re : List (ℤ × ℤ)) (maxI : ℕ) (prio : Bool)
    (hlen : re.length = rp.length) (hwf : WFPair rp re) (hmax : maxI ≤ rp.length)
    (s : TDState) (hinv : TDFull rp re s) (hl : s.interleaved.length < maxI) :
    ∃ s', tdStep rp re rp.length prio s = some s' ∧ TDFull rp re s' ∧
      s'.interleaved.length = s.interleaved.length + 1 := by
  obtain ⟨hF, hT, hpb, heb, hcp, hce⟩ := hinv
  have hFpos : ∀ t ∈ s.found_duplicates, 0 < t := by
    rw [hF]; exact mem_tagsOf_pos _
  have hFlen : s.found_duplicates.length =
      s.interleaved.countP (fun e => decide (0 < e.2.1)) := by
    rw [hF]; exact tagsOf_length _
  have hIsplit := countP_tag_split s.interleaved
  have hMemF : ∀ e ∈ s.interleaved, 0 < e.2.1 → e.2.1 ∈ s.found_duplicates := by
    intro e he hp
    rw [hF]
    exact mem_tagsOf_of_emit _ e he hp
  by_cases hc : s.p_team < s.e_team ∨ (s.p_team = s.e_team ∧ prio)
  · have htake : (rp.take s.p_pointer).length = s.p_pointer := by
      rw [List.length_take]; omega
    have hsplit1 := countP_mem_split (rp.take s.p_pointer) s.found_duplicates
    rw [htake] at hsplit1
    have hsplit2 := countP_take_add_drop rp s.p_pointer
      (fun d => decide (d.2 ∈ s.found_duplicates))
    have hone : ∀ t ∈ s.found_duplicates,
        rp.countP (fun d => decide (d.2 = t)) ≤ 1 := by
      intro t ht
      exact wf_unique_p rp re hwf t (hFpos t ht)
    have hcAll := countP_mem_tags_le rp s.found_duplicates hone
    have hdl : s.p_pointer + (rp.drop s.p_pointer).length = rp.length := by
      rw [List.length_drop]; omega
    have hscan : (rp.drop s.p_pointer).countP
        (fun d => decide (d.2 ∈ s.found_duplicates)) <
        (rp.drop s.p_pointer).length := by omega
    obtain ⟨skipped, doc, rest', hsp, hskipF, hdocF, hres⟩ :=
      findFreshAux_success rp.length s.found_duplicates (rp.drop s.p_pointer)
        s.p_pointer hdl hscan
    have hff : findFresh rp rp.length s.found_duplicates s.p_pointer =
        some (some doc, s.p_pointer + skipped.length + 1) := by
      unfold findFresh
      exact hres
    have hlen2 : (rp.drop s.p_pointer).length =
        skipped.length + 1 + rest'.length := by
      rw [hsp]
      simp only [List.length_append, List.length_cons]
      omega
    have hnewptr : s.p_pointer + skipped.length + 1 ≤ rp.length := by omega
    have htakeNew : rp.take (s.p_pointer + skipped.length + 1) =
        rp.take s.p_pointer ++ (skipped ++ [doc]) := by
      rw [show s.p_pointer + skipped.length + 1 =
          s.p_pointer + (skipped.length + 1) from by omega]
      rw [List.take_add, hsp]
      congr 1
      rw [List.take_append]
      simp
    by_cases hd2 : 0 < doc.2
    · refine ⟨{ interleaved := s.interleaved ++ [(doc.1, doc.2, 0)]
                p_team := s.p_team + 1
                e_team := s.e_team
                p_pointer := s.p_pointer + skipped.length + 1
                e_pointer := s.e_pointer
                found_duplicates := s.found_duplicates ++ [doc.2] },
        ?_, ⟨?_, ?_, ?_, ?_, ?_, ?_⟩, ?_⟩
      · unfold tdStep
        rw [if_pos hc, hff]
        dsimp only
        rw [if_pos hd2]
      · dsimp only
        rw [tagsOf_append_pos _ _ _ _ hd2, hF]
      · exact tagOnce_append_fresh _ _ _ _ _ hT hMemF hdocF
      · exact hnewptr
      · exact heb
      · dsimp only
        have hskip0 : skipped.countP
            (fun d => decide (d.2 ∉ s.found_duplicates ++ [doc.2])) = 0 := by
          rw [List.countP_eq_zero]
          intro d hd
          simp only [decide_eq_true_eq, Decidable.not_not]
          exact List.mem_append_left _ (hskipF d hd)
        have hdoc0 : List.countP
            (fun d => decide (d.2 ∉ s.found_duplicates ++ [doc.2])) [doc] = 0 := by
          rw [List.countP_singleton,
            if_neg (by simp only [decide_eq_true_eq, Decidable.not_not]
                       exact List.mem_append_right _ (List.mem_singleton.mpr rfl))]
        have hmono : (rp.take s.p_pointer).countP
            (fun d => decide (d.2 ∉ s.found_duplicates ++ [doc.2])) ≤
            (rp.take s.p_pointer).countP
            (fun d => decide (d.2 ∉ s.found_duplicates)) :=
          countP_not_mem_mono _ _ _ (fun t ht => List.mem_append_left _ ht)
        have hnew0 : List.countP (fun e : ℤ × ℤ × ℕ => decide (e.2.1 ≤ 0))
            [(doc.1, doc.2, 0)] = 0 := by
          rw [List.countP_singleton,
            if_neg (by simp only [decide_eq_true_eq]; omega)]
        rw [htakeNew, List.countP_append, List.countP_append,
          List.countP_append, hskip0, hdoc0, hnew0]
        omega
      · dsimp only
        have hmono := countP_not_mem_mono (re.take s.e_pointer)
          s.found_duplicates (s.found_duplicates ++ [doc.2])
          (fun t ht => List.mem_append_left _ ht)
        have hnew0 : List.countP (fun e : ℤ × ℤ × ℕ => decide (e.2.1 ≤ 0))
            [(doc.1, doc.2, 0)] = 0 := by
          rw [List.countP_singleton,
            if_neg (by simp only [decide_eq_true_eq]; omega)]
        rw [List.countP_append, hnew0]
        omega
      · dsimp only
        simp [List.length_append]
    · refine ⟨{ interleaved := s.interleaved ++ [(doc.1, doc.2, 0)]
                p_team := s.p_team + 1
                e_team := s.e_team
                p_pointer := s.p_pointer + skipped.length + 1
                e_pointer := s.e_pointer
                found_duplicates := s.found_duplicates },
        ?_, ⟨?_, ?_, ?_, ?_, ?_, ?_⟩, ?_⟩
      · unfold tdStep
        rw [if_pos hc, hff]
        dsimp only
        rw [if_neg hd2]
      · dsimp only
        rw [tagsOf_append_nonpos _ _ _ _ hd2]
        exact hF
      · exact tagOnce_append_nonpos _ _ _ _ hT hd2
      · exact hnewptr
      · exact heb
      · dsimp only
        have hskip0 : skipped.countP
            (fun d => decide (d.2 ∉ s.found_duplicates)) = 0 := by
          rw [List.countP_eq_zero]
          intro d hd
          simp only [decide_eq_true_eq, Decidable.not_not]
          exact hskipF d hd
        have hdoc1 : List.countP
            (fun d => decide (d.2 ∉ s.found_duplicates)) [doc] ≤ 1 := by
          rw [List.countP_singleton]
          split <;> omega
        have hnew1 : List.countP (fun e : ℤ × ℤ × ℕ => decide (e.2.1 ≤ 0))
            [(doc.1, doc.2, 0)] = 1 := by
          rw [List.countP_singleton,
            if_pos (by simp only [decide_eq_true_eq]; omega)]
        rw [htakeNew, List.countP_append, List.countP_append,
          List.countP_append, hskip0, hnew1]
        omega
      · dsimp only
        have hnew1 : List.countP (fun e : ℤ × ℤ × ℕ => decide (e.2.1 ≤ 0))
            [(doc.1, doc.2, 0)] = 1 := by
          rw [List.countP_singleton,
            if_pos (by simp only [decide_eq_true_eq]; omega)]
        rw [List.countP_append, hnew1]
        omega
      · dsimp only
        simp [List.length_append]
  · have htake : (re.take s.e_pointer).length = s.e_pointer := by
      rw [List.length_take]; omega
    have hsplit1 := countP_mem_split (re.take s.e_pointer) s.found_duplicates
    rw [htake] at hsplit1
    have hsplit2 := countP_take_add_drop re s.e_pointer
      (fun d => decide (d.2 ∈ s.found_duplicates))
    have hone : ∀ t ∈ s.found_duplicates,
        re.countP (fun d => decide (d.2 = t)) ≤ 1 := by
      intro t ht
      exact wf_unique_e rp re hwf t (hFpos t ht)
    have hcAll := countP_mem_tags_le re s.found_duplicates hone
    have hdl : s.e_pointer + (re.drop s.e_pointer).length = rp.length := by
      rw [List.length_drop]; omega
    have hscan : (re.drop s.e_pointer).countP
        (fun d => decide (d.2 ∈ s.found_duplicates)) <
        (re.drop s.e_pointer).length := by omega
    obtain ⟨skipped, doc, rest', hsp, hskipF, hdocF, hres⟩ :=
      findFreshAux_success rp.length s.found_duplicates (re.drop s.e_pointer)
        s.e_pointer hdl hscan
    have hff : findFresh re rp.length s.found_duplicates s.e_pointer =
        some (some doc, s.e_pointer + skipped.length + 1) := by
      unfold findFresh
      exact hres
    have hlen2 : (re.drop s.e_pointer).length =
        skipped.length + 1 + rest'.length := by
      rw [hsp]
      simp only [List.length_append, List.length_cons]
      omega
    have hnewptr : s.e_pointer + skipped.length + 1 ≤ re.length := by omega
    have htakeNew : re.take (s.e_pointer + skipped.length + 1) =
        re.take s.e_pointer ++ (skipped ++ [doc]) := by
      rw [show s.e_pointer + skipped.length + 1 =
          s.e_pointer + (skipped.length + 1) from by omega]
      rw [List.take_add, hsp]
      congr 1
      rw [List.take_append]
      simp
    by_cases hd2 : 0 < doc.2
    · refine ⟨{ interleaved := s.interleaved ++ [(doc.1, doc.2, 1)]
                p_team := s.p_team
                e_team := s.e_team + 1
                p_pointer := s.p_pointer
                e_pointer := s.e_pointer + skipped.length + 1
                found_duplicates := s.found_duplicates ++ [doc.2] },
        ?_, ⟨?_, ?_, ?_, ?_, ?_, ?_⟩, ?_⟩
      · unfold tdStep
        rw [if_neg hc, hff]
        dsimp only
        rw [if_pos hd2]
      · dsimp only
        rw [tagsOf_append_pos _ _ _ _ hd2, hF]
      · exact tagOnce_append_fresh _ _ _ _ _ hT hMemF hdocF
      · exact hpb
      · exact hnewptr
      · dsimp only
        have hmono := countP_not_mem_mono (rp.take s.p_pointer)
          s.found_duplicates (s.found_duplicates ++ [doc.2])
          (fun t ht => List.mem_append_left _ ht)
        have hnew0 : List.countP (fun e : ℤ × ℤ × ℕ => decide (e.2.1 ≤ 0))
            [(doc.1, doc.2, 1)] = 0 := by
          rw [List.countP_singleton,
            if_neg (by simp only [decide_eq_true_eq]; omega)]
        rw [List.countP_append, hnew0]
        omega
      · dsimp only
        have hskip0 : skipped.countP
            (fun d => decide (d.2 ∉ s.found_duplicates ++ [doc.2])) = 0 := by
          rw [List.countP_eq_zero]
          intro d hd
          simp only [decide_eq_true_eq, Decidable.not_not]
          exact List.mem_append_left _ (hskipF d hd)
        have hdoc0 : List.countP
            (fun d => decide (d.2 ∉ s.found_duplicates ++ [doc.2])) [doc] = 0 := by
          rw [List.countP_singleton,
            if_neg (by simp only [decide_eq_true_eq, Decidable.not_not]
                       exact List.mem_append_right _ (List.mem_singleton.mpr rfl))]
        have hmono : (re.take s.e_pointer).countP
            (fun d => decide (d.2 ∉ s.found_duplicates ++ [doc.2])) ≤
            (re.take s.e_pointer).countP
            (fun d => decide (d.2 ∉ s.found_duplicates)) :=
          countP_not_mem_mono _ _ _ (fun t ht => List.mem_append_left _ ht)
        have hnew0 : List.countP (fun e : ℤ × ℤ × ℕ => decide (e.2.1 ≤ 0))
            [(doc.1, doc.2, 1)] = 0 := by
          rw [List.countP_singleton,
            if_neg (by simp only [decide_eq_true_eq]; omega)]
        rw [htakeNew, List.countP_append, List.countP_append,
          List.countP_append, hskip0, hdoc0, hnew0]
        omega
      · dsimp only
        simp [List.length_append]
    · refine ⟨{ interleaved := s.interleaved ++ [(doc.1, doc.2, 1)]
                p_team := s.p_team
                e_team := s.e_team + 1
                p_pointer := s.p_pointer
                e_pointer := s.e_pointer + skipped.length + 1
                found_duplicates := s.found_duplicates },
        ?_, ⟨?_, ?_, ?_, ?_, ?_, ?_⟩, ?_⟩
      · unfold tdStep
        rw [if_neg hc, hff]
        dsimp only
        rw [if_neg hd2]
      · dsimp only
        rw [tagsOf_append_nonpos _ _ _ _ hd2]
        exact hF
      · exact tagOnce_append_nonpos _ _ _ _ hT hd2
      · exact hpb
      · exact hnewptr
      · dsimp only
        have hnew1 : List.countP (fun e : ℤ × ℤ × ℕ => decide (e.2.1 ≤ 0))
            [(doc.1, doc.2, 1)] = 1 := by
          rw [List.countP_singleton,
            if_pos (by simp only [decide_eq_true_eq]; omega)]
        rw [List.countP_append, hnew1]
        omega
      · dsimp only
        have hskip0 : skipped.countP
            (fun d => decide (d.2 ∉ s.found_duplicates)) = 0 := by
          rw [List.countP_eq_zero]
          intro d hd
          simp only [decide_eq_true_eq, Decidable.not_not]
          exact hskipF d hd
        have hdoc1 : List.countP
            (fun d => decide (d.2 ∉ s.found_duplicates)) [doc] ≤ 1 := by
          rw [List.countP_singleton]
          split <;> omega
        have hnew1 : List.countP (fun e : ℤ × ℤ × ℕ => decide (e.2.1 ≤ 0))
            [(doc.1, doc.2, 1)] = 1 := by
          rw [List.countP_singleton,
            if_pos (by simp only [decide_eq_true_eq]; omega)]
        rw [htakeNew, List.countP_append, List.countP_append,
          List.countP_append, hskip0, hnew1]
        omega
      · dsimp only
        simp [List.length_append]

/-- On a well-formed pair with `max_interleav` within the ranking length,
the `td_interleaving` loop always completes with exactly `max_interleav`
emissions. -/
theorem tdLoop_full (rp re : List (ℤ × ℤ)) (maxI : ℕ) (prios : ℕ → Bool)
    (hlen : re.length = rp.length) (hwf : WFPair rp re)
    (hmax : maxI ≤ rp.length) :
    ∀ (fuel n : ℕ) (s : TDState), TDFull rp re s →
      s.interleaved.length ≤ maxI → maxI ≤ fuel + s.interleaved.length →
      ∃ l, tdLoop rp re rp.length maxI prios fuel n s = RunRes.ok l ∧
        l.length = maxI := by
  intro fuel
  induction fuel with
  | zero =>
    intro n s _ hle hfuel
    refine ⟨s.interleaved, ?_, by omega⟩
    unfold tdLoop
    rw [if_neg (by omega)]
  | succ fuel ih =>
    intro n s hinv hle hfuel
    by_cases hl : s.interleaved.length < maxI
    · obtain ⟨s', hstep, hinv', hlen'⟩ :=
        tdStep_full rp re maxI (prios n) hlen hwf hmax s hinv hl
      obtain ⟨l, hok, hlLen⟩ := ih (n + 1) s' hinv' (by omega) (by omega)
      refine ⟨l, ?_, hlLen⟩
      unfold tdLoop
      rw [if_pos hl, hstep]
      exact hok
    · refine ⟨s.interleaved, ?_, by omega⟩
      unfold tdLoop
      rw [if_neg hl]

/-- On a well-formed pair with `max_interleav` within the ranking length,
one `prob_interleaving` iteration below the target length always succeeds
and emits exactly one document, preserving the full invariant. -/
theorem piStep_full (rp re : List (ℤ × ℤ)) (maxI : ℕ) (prio : Bool) (sel : ℕ)
    (hlen : re.length = rp.length) (hwf : WFPair rp re) (hmax : maxI ≤ rp.length)
    (s : PIState) (hinv : PIFull rp re s) (hl : s.interleaved.length < maxI) :
    ∃ s', piStep rp re prio sel s = some s' ∧ PIFull rp re s' ∧
      s'.interleaved.length = s.interleaved.length + 1 := by
  obtain ⟨hPi, hEi, hPnd, hEnd, hTeam, hPF, hEF, hPQ, hEQ, hPc, hEc⟩ := hinv
  have hTsplit := countP_team_split s.interleaved hTeam
  have hc0t := countP_team_tag_le s.interleaved 0
  have hc1t := countP_team_tag_le s.interleaved 1
  by_cases hc : (prio ∧ s.p_indices ≠ []) ∨ s.e_indices = []
  · have hpNe : s.p_indices ≠ [] := by
      rcases hc with ⟨_, h⟩ | hE0
      · exact h
      · intro hP0
        rw [hP0] at hPc
        rw [hE0] at hEc
        simp only [List.length_nil] at hPc hEc
        omega
    obtain ⟨i, hpick, hi⟩ := pickIndex_mem s.p_indices sel hpNe
    have hiL : i < rp.length := hPi i hi
    have hrem : removeFirst s.p_indices i = some (s.p_indices.erase i) := by
      unfold removeFirst
      rw [if_pos hi]
    have hget : rp.get? i = some (rp.get ⟨i, hiL⟩) := List.get?_eq_get hiL
    have hd0 : 0 ≤ (rp.get ⟨i, hiL⟩).2 := hwf.1 _ (List.get_mem rp i hiL)
    by_cases htag : (rp.get ⟨i, hiL⟩).2 = 0
    · have hcnt0 : (s.interleaved ++
          [((rp.get ⟨i, hiL⟩).1, (rp.get ⟨i, hiL⟩).2, 0)]).countP
          (fun e : ℤ × ℤ × ℕ => decide (e.2.2 = 0)) =
          s.interleaved.countP (fun e => decide (e.2.2 = 0)) + 1 := by
        simp [List.countP_append, List.countP_singleton]
      have hcnt1 : (s.interleaved ++
          [((rp.get ⟨i, hiL⟩).1, (rp.get ⟨i, hiL⟩).2, 0)]).countP
          (fun e : ℤ × ℤ × ℕ => decide (e.2.2 = 1)) =
          s.interleaved.countP (fun e => decide (e.2.2 = 1)) := by
        simp [List.countP_append, List.countP_singleton]
      have hcnt1t : (s.interleaved ++
          [((rp.get ⟨i, hiL⟩).1, (rp.get ⟨i, hiL⟩).2, 0)]).countP
          (fun e : ℤ × ℤ × ℕ => decide (e.2.2 = 1 ∧ 0 < e.2.1)) =
          s.interleaved.countP (fun e => decide (e.2.2 = 1 ∧ 0 < e.2.1)) := by
        simp [List.countP_append, List.countP_singleton]
      have hcnt0t : (s.interleaved ++
          [((rp.get ⟨i, hiL⟩).1, (rp.get ⟨i, hiL⟩).2, 0)]).countP
          (fun e : ℤ × ℤ × ℕ => decide (e.2.2 = 0 ∧ 0 < e.2.1)) =
          s.interleaved.countP (fun e => decide (e.2.2 = 0 ∧ 0 < e.2.1)) := by
        simp only [List.get_eq_getElem] at htag
        simp [List.countP_append, List.countP_singleton, htag]
      have hplen := List.length_erase_add_one hi
      refine ⟨{ interleaved := s.interleaved ++
                  [((rp.get ⟨i, hiL⟩).1, (rp.get ⟨i, hiL⟩).2, 0)]
                p_indices := s.p_indices.erase i
                e_indices := s.e_indices
                found_duplicates := s.found_duplicates },
        ?_, ⟨?_, ?_, ?_, ?_, ?_, ?_, ?_, ?_, ?_, ?_, ?_⟩, ?_⟩
      · unfold piStep
        rw [if_pos hc, hpick]
        simp only [Option.some_bind]
        rw [hrem]
        simp only [Option.some_bind]
        rw [hget]
        simp only [Option.some_bind]
        rw [if_pos htag]
      · intro j hj
        exact hPi j (List.mem_of_mem_erase hj)
      · exact hEi
      · exact hPnd.erase i
      · exact hEnd
      · intro e he
        rcases List.mem_append.mp he with h | h
        · exact hTeam e h
        · rw [List.mem_singleton] at h
          subst h
          exact Or.inl rfl
      · intro i' hi' hi'L hpos
        exact hPF i' (List.mem_of_mem_erase hi') hi'L hpos
      · exact hEF
      · intro j hj hjpos hjF
        have hjP := hPQ j hj hjpos hjF
        have hne : j ≠ i := by
          intro h
          have heq : (rp.get ⟨j, hj⟩).2 = (rp.get ⟨i, hiL⟩).2 := by
            subst h; rfl
          omega
        exact (List.mem_erase_of_ne hne).mpr hjP
      · exact hEQ
      · dsimp only
        rw [hcnt0, hcnt1t]
        omega
      · dsimp only
        rw [hcnt1, hcnt0t]
        omega
      · dsimp only
        simp [List.length_append]
    · have htagpos : 0 < (rp.get ⟨i, hiL⟩).2 := by omega
      have hfresh : (rp.get ⟨i, hiL⟩).2 ∉ s.found_duplicates :=
        hPF i hi hiL htagpos
      have hmemE : rp.get ⟨i, hiL⟩ ∈ re :=
        hwf.2.2.2.2.1 _ (List.get_mem rp i hiL) htagpos
      obtain ⟨k, hk, hfind, hgetk⟩ := findIdx?_mem_aux (rp.get ⟨i, hiL⟩) re hmemE 0
      rw [Nat.zero_add] at hfind
      have hkE : k ∈ s.e_indices := by
        apply hEQ k hk
        · rw [hgetk]; exact htagpos
        · rw [hgetk]; exact hfresh
      have hremE : removeFirst s.e_indices k = some (s.e_indices.erase k) := by
        unfold removeFirst
        rw [if_pos hkE]
      have hcnt0 : (s.interleaved ++
          [((rp.get ⟨i, hiL⟩).1, (rp.get ⟨i, hiL⟩).2, 0)]).countP
          (fun e : ℤ × ℤ × ℕ => decide (e.2.2 = 0)) =
          s.interleaved.countP (fun e => decide (e.2.2 = 0)) + 1 := by
        simp [List.countP_append, List.countP_singleton]
      have hcnt1 : (s.interleaved ++
          [((rp.get ⟨i, hiL⟩).1, (rp.get ⟨i, hiL⟩).2, 0)]).countP
          (fun e : ℤ × ℤ × ℕ => decide (e.2.2 = 1)) =
          s.interleaved.countP (fun e => decide (e.2.2 = 1)) := by
        simp [List.countP_append, List.countP_singleton]
      have hcnt1t : (s.interleaved ++
          [((rp.get ⟨i, hiL⟩).1, (rp.get ⟨i, hiL⟩).2, 0)]).countP
          (fun e : ℤ × ℤ × ℕ => decide (e.2.2 = 1 ∧ 0 < e.2.1)) =
          s.interleaved.countP (fun e => decide (e.2.2 = 1 ∧ 0 < e.2.1)) := by
        simp [List.countP_append, List.countP_singleton]
      have hcnt0t : (s.interleaved ++
          [((rp.get ⟨i, hiL⟩).1, (rp.get ⟨i, hiL⟩).2, 0)]).countP
          (fun e : ℤ × ℤ × ℕ => decide (e.2.2 = 0 ∧ 0 < e.2.1)) =
          s.interleaved.countP (fun e => decide (e.2.2 = 0 ∧ 0 < e.2.1)) + 1 := by
        have htagpos' : 0 < (rp.get ⟨i, hiL⟩).2 := htagpos
        simp only [List.get_eq_getElem] at htagpos'
        simp [List.countP_append, List.countP_singleton, htagpos']
      have hplen := List.length_erase_add_one hi
      have helen := List.length_erase_add_one hkE
      refine ⟨{ interleaved := s.interleaved ++
                  [((rp.get ⟨i, hiL⟩).1, (rp.get ⟨i, hiL⟩).2, 0)]
                p_indices := s.p_indices.erase i
                e_indices := s.e_indices.erase k
                found_duplicates := s.found_duplicates ++ [(rp.get ⟨i, hiL⟩).2] },
        ?_, ⟨?_, ?_, ?_, ?_, ?_, ?_, ?_, ?_, ?_, ?_, ?_⟩, ?_⟩
      · unfold piStep
        rw [if_pos hc, hpick]
        simp only [Option.some_bind]
        rw [hrem]
        simp only [Option.some_bind]
        rw [hget]
        simp only [Option.some_bind]
        rw [if_neg htag, if_pos ⟨htagpos, hfresh⟩, hfind]
        simp only [Option.some_bind]
        rw [hremE]
        simp only [Option.some_bind]
      · intro j hj
        exact hPi j (List.mem_of_mem_erase hj)
      · intro j hj
        exact hEi j (List.mem_of_mem_erase hj)
      · exact hPnd.erase i
      · exact hEnd.erase k
      · intro e he
        rcases List.mem_append.mp he with h | h
        · exact hTeam e h
        · rw [List.mem_singleton] at h
          subst h
          exact Or.inl rfl
      · intro i' hi' hi'L hpos
        obtain ⟨hne, hi'mem⟩ := (List.Nodup.mem_erase_iff hPnd).mp hi'
        have h1 := hPF i' hi'mem hi'L hpos
        intro hmem
        rcases List.mem_append.mp hmem with h | h
        · exact h1 h
        · rw [List.mem_singleton] at h
          have h2 := two_le_countP_tag rp i' i hi'L hiL hne _ h rfl
          have h3 := wf_unique_p rp re hwf (rp.get ⟨i, hiL⟩).2 htagpos
          omega
      · intro j' hj' hj'L hpos
        obtain ⟨hne, hj'mem⟩ := (List.Nodup.mem_erase_iff hEnd).mp hj'
        have h1 := hEF j' hj'mem hj'L hpos
        intro hmem
        rcases List.mem_append.mp hmem with h | h
        · exact h1 h
        · rw [List.mem_singleton] at h
          have h2 := two_le_countP_tag re j' k hj'L hk hne _ h
            (by rw [hgetk])
          have h3 := wf_unique_e rp re hwf (rp.get ⟨i, hiL⟩).2 htagpos
          omega
      · intro j hj hjpos hjF'
        have hjF : (rp.get ⟨j, hj⟩).2 ∉ s.found_duplicates :=
          fun h => hjF' (List.mem_append_left _ h)
        have hjne : (rp.get ⟨j, hj⟩).2 ≠ (rp.get ⟨i, hiL⟩).2 :=
          fun h => hjF' (List.mem_append_right _ (List.mem_singleton.mpr h))
        have hjP := hPQ j hj hjpos hjF
        have hne : j ≠ i := by
          intro h
          apply hjne
          subst h
          rfl
        exact (List.mem_erase_of_ne hne).mpr hjP
      · intro j hj hjpos hjF'
        have hjF : (re.get ⟨j, hj⟩).2 ∉ s.found_duplicates :=
          fun h => hjF' (List.mem_append_left _ h)
        have hjne : (re.get ⟨j, hj⟩).2 ≠ (rp.get ⟨i, hiL⟩).2 :=
          fun h => hjF' (List.mem_append_right _ (List.mem_singleton.mpr h))
        have hjE := hEQ j hj hjpos hjF
        have hne : j ≠ k := by
          intro h
          apply hjne
          subst h
          exact congrArg Prod.snd hgetk
        exact (List.mem_erase_of_ne hne).mpr hjE
      · dsimp only
        rw [hcnt0, hcnt1t]
        omega
      · dsimp only
        rw [hcnt1, hcnt0t]
        omega
      · dsimp only
        simp [List.length_append]
  · have heNe : s.e_indices ≠ [] := fun h0 => hc (Or.inr h0)
    obtain ⟨j, hpick, hj⟩ := pickIndex_mem s.e_indices sel heNe
    have hjL : j < re.length := hEi j hj
    have hrem : removeFirst s.e_indices j = some (s.e_indices.erase j) := by
      unfold removeFirst
      rw [if_pos hj]
    have hget : re.get? j = some (re.get ⟨j, hjL⟩) := List.get?_eq_get hjL
    have hd0 : 0 ≤ (re.get ⟨j, hjL⟩).2 := hwf.2.1 _ (List.get_mem re j hjL)
    by_cases htag : (re.get ⟨j, hjL⟩).2 = 0
    · have hcnt0 : (s.interleaved ++
          [((re.get ⟨j, hjL⟩).1, (re.get ⟨j, hjL⟩).2, 1)]).countP
          (fun e : ℤ × ℤ × ℕ => decide (e.2.2 = 0)) =
          s.interleaved.countP (fun e => decide (e.2.2 = 0)) := by
        simp [List.countP_append, List.countP_singleton]
      have hcnt1 : (s.interleaved ++
          [((re.get ⟨j, hjL⟩).1, (re.get ⟨j, hjL⟩).2, 1)]).countP
          (fun e : ℤ × ℤ × ℕ => decide (e.2.2 = 1)) =
          s.interleaved.countP (fun e => decide (e.2.2 = 1)) + 1 := by
        simp [List.countP_append, List.countP_singleton]
      have hcnt1t : (s.interleaved ++
          [((re.get ⟨j, hjL⟩).1, (re.get ⟨j, hjL⟩).2, 1)]).countP
          (fun e : ℤ × ℤ × ℕ => decide (e.2.2 = 1 ∧ 0 < e.2.1)) =
          s.interleaved.countP (fun e => decide (e.2.2 = 1 ∧ 0 < e.2.1)) := by
        simp only [List.get_eq_getElem] at htag
        simp [List.countP_append, List.countP_singleton, htag]
      have hcnt0t : (s.interleaved ++
          [((re.get ⟨j, hjL⟩).1, (re.get ⟨j, hjL⟩).2, 1)]).countP
          (fun e : ℤ × ℤ × ℕ => decide (e.2.2 = 0 ∧ 0 < e.2.1)) =
          s.interleaved.countP (fun e => decide (e.2.2 = 0 ∧ 0 < e.2.1)) := by
        simp [List.countP_append, List.countP_singleton]
      have helen := List.length_erase_add_one hj
      refine ⟨{ interleaved := s.interleaved ++
                  [((re.get ⟨j, hjL⟩).1, (re.get ⟨j, hjL⟩).2, 1)]
                p_indices := s.p_indices
                e_indices := s.e_indices.erase j
                found_duplicates := s.found_duplicates },
        ?_, ⟨?_, ?_, ?_, ?_, ?_, ?_, ?_, ?_, ?_, ?_, ?_⟩, ?_⟩
      · unfold piStep
        rw [if_neg hc, hpick]
        simp only [Option.some_bind]
        rw [hrem]
        simp only [Option.some_bind]
        rw [hget]
        simp only [Option.some_bind]
        rw [if_pos htag]
      · exact hPi
      · intro j' hj'
        exact hEi j' (List.mem_of_mem_erase hj')
      · exact hPnd
      · exact hEnd.erase j
      · intro e he
        rcases List.mem_append.mp he with h | h
        · exact hTeam e h
        · rw [List.mem_singleton] at h
          subst h
          exact Or.inr rfl
      · exact hPF
      · intro j' hj' hj'L hpos
        exact hEF j' (List.mem_of_mem_erase hj') hj'L hpos
      · exact hPQ
      · intro j' hj' hjpos hjF
        have hjE := hEQ j' hj' hjpos hjF
        have hne : j' ≠ j := by
          intro h
          have heq : (re.get ⟨j', hj'⟩).2 = (re.get ⟨j, hjL⟩).2 := by
            subst h; rfl
          omega
        exact (List.mem_erase_of_ne hne).mpr hjE
      · dsimp only
        rw [hcnt0, hcnt1t]
        omega
      · dsimp only
        rw [hcnt1, hcnt0t]
        omega
      · dsimp only
        simp [List.length_append]
    · have htagpos : 0 < (re.get ⟨j, hjL⟩).2 := by omega
      have hfresh : (re.get ⟨j, hjL⟩).2 ∉ s.found_duplicates :=
        hEF j hj hjL htagpos
      have hmemP : re.get ⟨j, hjL⟩ ∈ rp :=
        hwf.2.2.2.2.2 _ (List.get_mem re j hjL) htagpos
      obtain ⟨k, hk, hfind, hgetk⟩ := findIdx?_mem_aux (re.get ⟨j, hjL⟩) rp hmemP 0
      rw [Nat.zero_add] at hfind
      have hkP : k ∈ s.p_indices := by
        apply hPQ k hk
        · rw [hgetk]; exact htagpos
        · rw [hgetk]; exact hfresh
      have hremP : removeFirst s.p_indices k = some (s.p_indices.erase k) := by
        unfold removeFirst
        rw [if_pos hkP]
      have hcnt0 : (s.interleaved ++
          [((re.get ⟨j, hjL⟩).1, (re.get ⟨j, hjL⟩).2, 1)]).countP
          (fun e : ℤ × ℤ × ℕ => decide (e.2.2 = 0)) =
          s.interleaved.countP (fun e => decide (e.2.2 = 0)) := by
        simp [List.countP_append, List.countP_singleton]
      have hcnt1 : (s.interleaved ++
          [((re.get ⟨j, hjL⟩).1, (re.get ⟨j, hjL⟩).2, 1)]).countP
          (fun e : ℤ × ℤ × ℕ => decide (e.2.2 = 1)) =
          s.interleaved.countP (fun e => decide (e.2.2 = 1)) + 1 := by
        simp [List.countP_append, List.countP_singleton]
      have hcnt1t : (s.interleaved ++
          [((re.get ⟨j, hjL⟩).1, (re.get ⟨j, hjL⟩).2, 1)]).countP
          (fun e : ℤ × ℤ × ℕ => decide (e.2.2 = 1 ∧ 0 < e.2.1)) =
          s.interleaved.countP (fun e => decide (e.2.2 = 1 ∧ 0 < e.2.1)) + 1 := by
        have htagpos' : 0 < (re.get ⟨j, hjL⟩).2 := htagpos
        simp only [List.get_eq_getElem] at htagpos'
        simp [List.countP_append, List.countP_singleton, htagpos']
      have hcnt0t : (s.interleaved ++
          [((re.get ⟨j, hjL⟩).1, (re.get ⟨j, hjL⟩).2, 1)]).countP
          (fun e : ℤ × ℤ × ℕ => decide (e.2.2 = 0 ∧ 0 < e.2.1)) =
          s.interleaved.countP (fun e => decide (e.2.2 = 0 ∧ 0 < e.2.1)) := by
        simp [List.countP_append, List.countP_singleton]
      have helen := List.length_erase_add_one hj
      have hplen := List.length_erase_add_one hkP
      refine ⟨{ interleaved := s.interleaved ++
                  [((re.get ⟨j, hjL⟩).1, (re.get ⟨j, hjL⟩).2, 1)]
                p_indices := s.p_indices.erase k
                e_indices := s.e_indices.erase j
                found_duplicates := s.found_duplicates ++ [(re.get ⟨j, hjL⟩).2] },
        ?_, ⟨?_, ?_, ?_, ?_, ?_, ?_, ?_, ?_, ?_, ?_, ?_⟩, ?_⟩
      · unfold piStep
        rw [if_neg hc, hpick]
        simp only [Option.some_bind]
        rw [hrem]
        simp only [Option.some_bind]
        rw [hget]
        simp only [Option.some_bind]
        rw [if_neg htag, if_pos ⟨htagpos, hfresh⟩, hfind]
        simp only [Option.some_bind]
        rw [hremP]
        simp only [Option.some_bind]
      · intro i' hi'
        exact hPi i' (List.mem_of_mem_erase hi')
      · intro j' hj'
        exact hEi j' (List.mem_of_mem_erase hj')
      · exact hPnd.erase k
      · exact hEnd.erase j
      · intro e he
        rcases List.mem_append.mp he with h | h
        · exact hTeam e h
        · rw [List.mem_singleton] at h
          subst h
          exact Or.inr rfl
      · intro i' hi' hi'L hpos
        obtain ⟨hne, hi'mem⟩ := (List.Nodup.mem_erase_iff hPnd).mp hi'
        have h1 := hPF i' hi'mem hi'L hpos
        intro hmem
        rcases List.mem_append.mp hmem with h | h
        · exact h1 h
        · rw [List.mem_singleton] at h
          have h2 := two_le_countP_tag rp i' k hi'L hk hne _ h
            (by rw [hgetk])
          have h3 := wf_unique_p rp re hwf (re.get ⟨j, hjL⟩).2 htagpos
          omega
      · intro j' hj' hj'L hpos
        obtain ⟨hne, hj'mem⟩ := (List.Nodup.mem_erase_iff hEnd).mp hj'
        have h1 := hEF j' hj'mem hj'L hpos
        intro hmem
        rcases List.mem_append.mp hmem with h | h
        · exact h1 h
        · rw [List.mem_singleton] at h
          have h2 := two_le_countP_tag re j' j hj'L hjL hne _ h rfl
          have h3 := wf_unique_e rp re hwf (re.get ⟨j, hjL⟩).2 htagpos
          omega
      · intro i' hi' hipos hiF'
        have hiF : (rp.get ⟨i', hi'⟩).2 ∉ s.found_duplicates :=
          fun h => hiF' (List.mem_append_left _ h)
        have hine : (rp.get ⟨i', hi'⟩).2 ≠ (re.get ⟨j, hjL⟩).2 :=
          fun h => hiF' (List.mem_append_right _ (List.mem_singleton.mpr h))
        have hiP := hPQ i' hi' hipos hiF
        have hne : i' ≠ k := by
          intro h
          apply hine
          subst h
          exact congrArg Prod.snd hgetk
        exact (List.mem_erase_of_ne hne).mpr hiP
      · intro j' hj' hjpos hjF'
        have hjF : (re.get ⟨j', hj'⟩).2 ∉ s.found_duplicates :=
          fun h => hjF' (List.mem_append_left _ h)
        have hjne : (re.get ⟨j', hj'⟩).2 ≠ (re.get ⟨j, hjL⟩).2 :=
          fun h => hjF' (List.mem_append_right _ (List.mem_singleton.mpr h))
        have hjE := hEQ j' hj' hjpos hjF
        have hne : j' ≠ j := by
          intro h
          apply hjne
          subst h
          rfl
        exact (List.mem_erase_of_ne hne).mpr hjE
      · dsimp only
        rw [hcnt0, hcnt1t]
        omega
      · dsimp only
        rw [hcnt1, hcnt0t]
        omega
      · dsimp only
        simp [List.length_append]

/-- On a well-formed pair with `max_interleav` within the ranking length,
the `prob_interleaving` loop always completes with exactly `max_interleav`
emissions. -/
theorem piLoop_full (rp re : List (ℤ × ℤ)) (maxI : ℕ) (prios : ℕ → Bool)
    (sels : ℕ → ℕ) (hlen : re.length = rp.length) (hwf : WFPair rp re)
    (hmax : maxI ≤ rp.length) :
    ∀ (fuel n : ℕ) (s : PIState), PIFull rp re s →
      s.interleaved.length ≤ maxI → maxI ≤ fuel + s.interleaved.length →
      ∃ l, piLoop rp re maxI prios sels fuel n s = RunRes.ok l ∧
        l.length = maxI := by
  intro fuel
  induction fuel with
  | zero =>
    intro n s _ hle hfuel
    refine ⟨s.interleaved, ?_, by omega⟩
    unfold piLoop
    rw [if_neg (by omega)]
  | succ fuel ih =>
    intro n s hinv hle hfuel
    by_cases hl : s.interleaved.length < maxI
    · obtain ⟨s', hstep, hinv', hlen'⟩ :=
        piStep_full rp re maxI (prios n) (sels n) hlen hwf hmax s hinv hl
      obtain ⟨l, hok, hlLen⟩ := ih (n + 1) s' hinv' (by omega) (by omega)
      refine ⟨l, ?_, hlLen⟩
      unfold piLoop
      rw [if_pos hl, hstep]
      exact hok
    · refine ⟨s.interleaved, ?_, by omega⟩
      unfold piLoop
      rw [if_neg hl]

/-- C3 (amended): when both rankings have the same length `L` and either the
pair satisfies the duplicate-tag well-formedness invariant with
`max_interleav ≤ L`, or the pair carries no duplicate tags at all with
`max_interleav ≤ 2 * L`, then `td_interleaving` and `prob_interleaving`
terminate for every random stream (fuel `≥ depth` suffices) and return a
list of length exactly `max_interleav`; but when the requested depth
exhausts the available documents they raise an exception (`IndexError`
resp. `np.random.choice` on an empty pool) instead of returning the shorter
partial list (see the counterexample). -/
theorem interleaving_full_length
    (rp re : List (ℤ × ℤ)) (maxI fuel : ℕ) (prios : ℕ → Bool) (sels : ℕ → ℕ)
    (hlen : re.length = rp.length)
    (hcase : (WFPair rp re ∧ maxI ≤ rp.length) ∨
      ((∀ d ∈ rp, d.2 = 0) ∧ (∀ d ∈ re, d.2 = 0) ∧ maxI ≤ 2 * rp.length))
    (hfuel : maxI ≤ fuel) :
    (∃ l, td_interleaving (rp, re) maxI prios fuel = RunRes.ok l ∧
      l.length = maxI) ∧
    (∃ l, prob_interleaving (rp, re) maxI prios sels fuel = RunRes.ok l ∧
      l.length = maxI) := by
  rcases hcase with ⟨hwf, hmax⟩ | ⟨hdp, hde, hmax⟩
  · constructor
    · refine tdLoop_full rp re maxI prios hlen hwf hmax fuel 0
        ⟨[], 0, 0, 0, 0, []⟩ ⟨rfl, ?_, ?_, ?_, ?_, ?_⟩ (by simp)
        (by simpa using hfuel)
      · intro t _
        simp [List.countP_nil]
      · exact Nat.zero_le _
      · exact Nat.zero_le _
      · simp
      · simp
    · refine piLoop_full rp re maxI prios sels hlen hwf hmax fuel 0
        ⟨[], List.range rp.length, List.range rp.length, []⟩
        ⟨?_, ?_, ?_, ?_, ?_, ?_, ?_, ?_, ?_, ?_, ?_⟩ (by simp)
        (by simpa using hfuel)
      · intro i hi
        exact List.mem_range.mp hi
      · intro i hi
        rw [hlen]
        exact List.mem_range.mp hi
      · exact List.nodup_range _
      · exact List.nodup_range _
      · intro e he
        cases he
      · intro i _ _ _
        simp
      · intro i _ _ _
        simp
      · intro i hi _ _
        exact List.mem_range.mpr hi
      · intro j hj _ _
        rw [hlen] at hj
        exact List.mem_range.mpr hj
      · simp
      · simp
  · constructor
    · exact tdLoop_ok_no_dup rp re maxI prios hlen hdp hde hmax fuel 0
        ⟨[], 0, 0, 0, 0, []⟩ rfl rfl rfl rfl (by simp) (by simpa using hfuel)
    · exact piLoop_ok_no_dup rp re maxI prios sels hlen hdp hde hmax fuel 0
        ⟨[], List.range rp.length, List.range rp.length, []⟩
        (fun i hi => List.mem_range.mp hi)
        (fun i hi => hlen ▸ List.mem_range.mp hi)
        (by simp) (by simp) (by simp) (by simp) (by simpa using hfuel)

/-- Witness for the amended C3 on a duplicate-carrying well-formed pair of
length 2 at depth 2 with fuel 2: both rankings share the document `(0, 1)`
under duplicate tag 1. -/
theorem interleaving_full_length_witness :
    (∃ l, td_interleaving ([((0 : ℤ), (1 : ℤ)), ((5 : ℤ), (0 : ℤ))],
        [((0 : ℤ), (1 : ℤ)), ((7 : ℤ), (0 : ℤ))]) 2 (fun _ => true) 2 =
        RunRes.ok l ∧ l.length = 2) ∧
    (∃ l, prob_interleaving ([((0 : ℤ), (1 : ℤ)), ((5 : ℤ), (0 : ℤ))],
        [((0 : ℤ), (1 : ℤ)), ((7 : ℤ), (0 : ℤ))]) 2 (fun _ => true) (fun _ => 0) 2 =
        RunRes.ok l ∧ l.length = 2) :=
  interleaving_full_length
    [((0 : ℤ), (1 : ℤ)), ((5 : ℤ), (0 : ℤ))]
    [((0 : ℤ), (1 : ℤ)), ((7 : ℤ), (0 : ℤ))]
    2 2 (fun _ => true) (fun _ => 0) rfl
    (Or.inl ⟨by unfold WFPair; decide, by decide⟩) (le_refl 2)

end IR2019
